import Mathlib

/-! Crawler module: worker pool, stop handshake and per-task pipeline.

A shallow embedding of `modules/crawler/crawler.go`.

* `Start` is a function on the package-level variables and the channel store.
* `Stop` and `execute` are given as the sequence of atomic actions they perform
  (`Act`), together with their return value; the channel actions (`send`,
  `recv`), which can block, get their meaning from the interleaving semantics
  `step`.
* `runPipeline` is a pair of program counters (the control path and the inner
  dequeue loop) stepped by `step`.

What lives in other packages (`core/pipeline`, `core/queue`, `core/env`) is a
parameter: the identifier and the outcome of a pipeline run (`PipelineRun`), the
content of the queue, the configuration values (`Env`).
-/

namespace Crawler

/-! ## Data model -/

/-- Wrap an integer into the range of a Go `int64` (two's complement). -/
def toInt64 (x : Int) : Int := (x + 2 ^ 63) % 2 ^ 64 - 2 ^ 63

/-- A buffered `chan bool`: its capacity and the values waiting in it. Channels
live in a store (`Mem`) and are named by their address there, a `Nat`; a
`*chan bool` of the source is an `Option Nat`, `none` for the nil pointer. -/
structure Chan where
  cap : Nat
  buf : List Bool
deriving DecidableEq

/-- Channel store with its allocation pointer. -/
structure Mem where
  heap : Nat → Chan
  next : Nat

/-- The store after `make(chan bool, cap)`; the new channel sits at the old `next`. -/
def Mem.make (m : Mem) (cap : Nat) : Mem :=
  ⟨fun a => if a = m.next then ⟨cap, []⟩ else m.heap a, m.next + 1⟩

/-- Field `RuntimeConfig.CrawlerConfig` of the environment. -/
structure CrawlerConfig where
  Enabled : Bool
deriving DecidableEq

/-- Field `RuntimeConfig.TaskConfig` of the environment. -/
structure TaskConfig where
  FetchDelayThreshold : Int
deriving DecidableEq

/-- Field `Env.RuntimeConfig`. -/
structure RuntimeConfig where
  MaxGoRoutine : Int
  CrawlerConfig : CrawlerConfig
  TaskConfig : TaskConfig
deriving DecidableEq

/-- The environment `*Env` handed to `Start`, `runPipeline` and `execute`. -/
structure Env where
  IsDebug : Bool
  RuntimeConfig : RuntimeConfig
deriving DecidableEq

/-- Log levels of the `seelog` calls in the file. -/
inductive Level
  | trace | debug | info | error
deriving DecidableEq

/-- One argument of a log call. -/
inductive LogArg
  | str (s : String)
  | int (n : Int)
deriving DecidableEq

/-- The package-level variables `signalChannels`, `quitChannels`, `started`. -/
structure Globals where
  started : Bool
  signalChannels : List (Option Nat)
  quitChannels : List (Option Nat)
deriving DecidableEq

/-! ## Pipeline values -/

/-- The joints `execute` puts into the pipeline, with the parameters it sets. -/
inductive Joint
  | Start (ID : String)
  | UrlNormalizationJoint (FollowSubDomain : Bool)
  | UrlFilterJoint
  | LoadMetadataJoint
  | IgnoreTimeoutJoint (IgnoreTimeoutAfterCount : Int)
  | FetchJoint
  | ParserJoint (DispatchLinks : Bool) (MaxDepth : Int)
  | SaveToDBJoint (CompressBody : Bool)
  | PublishJoint
  | End
deriving DecidableEq

/-- The `Context{Env: env}` literal. -/
structure Context where
  Env : Env
deriving DecidableEq

/-- Modelled from the spec: the `Pipeline` type of `core/pipeline`, which is not
under src: "an ordered list of stage instances plus one shared context", with
its name, its identifier, and the seed and closing stage. -/
structure Pipeline where
  name : String
  id : String
  context : Option Context
  startJoint : Option Joint
  joints : List Joint
  endJoint : Option Joint
deriving DecidableEq

/-- Modelled from the spec: `NewPipeline` of `core/pipeline` gives an empty
pipeline of that name; the identifier `GetID` reports is the parameter `id`. -/
def NewPipeline (name id : String) : Pipeline :=
  ⟨name, id, none, none, [], none⟩

/-- Modelled from the spec: `Pipeline.Context` of `core/pipeline` binds the
shared context. -/
def Pipeline.Context (p : Pipeline) (c : Crawler.Context) : Pipeline :=
  { p with context := some c }

/-- Modelled from the spec: `Pipeline.Start` of `core/pipeline` sets the seed
stage. -/
def Pipeline.Start (p : Pipeline) (j : Joint) : Pipeline :=
  { p with startJoint := some j }

/-- Modelled from the spec: `Pipeline.Join` of `core/pipeline` adds a stage
after the ones already joined. -/
def Pipeline.Join (p : Pipeline) (j : Joint) : Pipeline :=
  { p with joints := p.joints ++ [j] }

/-- Modelled from the spec: `Pipeline.End` of `core/pipeline` sets the closing
stage. -/
def Pipeline.End (p : Pipeline) (j : Joint) : Pipeline :=
  { p with endJoint := some j }

/-- Modelled from the spec: the order in which `Run` of `core/pipeline` visits
the stages: the seed, the joined stages "strictly in order", the closing one. -/
def Pipeline.stages (p : Pipeline) : List Joint :=
  p.startJoint.toList ++ p.joints ++ p.endJoint.toList

/-! ## Atomic actions -/

/-- The atomic actions performed by `Stop`, `runPipeline` and `execute`. -/
inductive Act
  | setStarted (b : Bool)
  | log (level : Level) (args : List LogArg)
  | send (c : Nat) (v : Bool)
  | recv (c : Nat)
  | wgAdd (n : Int)
  | wgDone
  | run (p : Pipeline)
  | sleep (d : Int)
deriving DecidableEq

/-! ## `Start` -/

/-- Arguments of one `go runPipeline(env, &signalC, &quitC, i)`. -/
structure Spawn where
  signalC : Nat
  quitC : Nat
  shard : Nat
deriving DecidableEq

/-- Everything `Start` reads and writes. -/
structure StartState where
  g : Globals
  mem : Mem
  spawned : List Spawn
  logs : List (Level × List LogArg)

/-- One iteration of the loop of `Start` with loop variable `i`. -/
def startBody (i : Nat) (st : StartState) : StartState :=
  let signalC := st.mem.next
  let m1 := st.mem.make 1
  let quitC := m1.next
  let m2 := m1.make 1
  { g := { st.g with
             signalChannels := st.g.signalChannels.set i (some signalC)
             quitChannels := st.g.quitChannels.set i (some quitC) }
    mem := m2
    spawned := st.spawned ++ [⟨signalC, quitC, i⟩]
    logs := st.logs ++ [(Level.trace, [LogArg.str "start crawler:", LogArg.int i])] }

/-- Run `k` more iterations of `for i := ...; i < numGoRoutine; i++`, the next
one with loop variable `i`. -/
def startLoop : Nat → Nat → StartState → StartState
  | 0, _, st => st
  | k + 1, i, st => startLoop k (i + 1) (startBody i st)

/-- Model of `CrawlerModule.Start`. `none` is the run-time panic of `make` on a
negative length. -/
def Start (env : Env) (g : Globals) (mem : Mem) : Option StartState :=
  if g.started then
    some ⟨g, mem, [],
      [(Level.error, [LogArg.str "crawler already started, please stop it first."])]⟩
  else
    let numGoRoutine := env.RuntimeConfig.MaxGoRoutine
    if numGoRoutine < 0 then none
    else
      let g1 : Globals :=
        { g with
            signalChannels := List.replicate numGoRoutine.toNat none
            quitChannels := List.replicate numGoRoutine.toNat none }
      if env.RuntimeConfig.CrawlerConfig.Enabled then
        let st := startLoop numGoRoutine.toNat 0 ⟨g1, mem, [], []⟩
        some { st with g := { st.g with started := true } }
      else
        some ⟨g1, mem, [], [(Level.info, [LogArg.str "crawler currently not enabled"])]⟩

/-! ## `Stop` -/

/-- The first loop of `Stop`, over `signalChannels`, from index `i`. -/
def stopSends : Nat → List (Option Nat) → List Act
  | _, [] => []
  | i, item :: rest =>
    (match item with
      | some c => [Act.send c true]
      | none => [])
    ++ [Act.log Level.debug [LogArg.str "send exit signal to fetch channel: ", LogArg.int i]]
    ++ stopSends (i + 1) rest

/-- The second loop of `Stop`, over `quitChannels`, from index `i`. -/
def stopRecvs : Nat → List (Option Nat) → List Act
  | _, [] => []
  | i, item :: rest =>
    [Act.log Level.debug [LogArg.str "get final exit signal from fetch channel: ", LogArg.int i]]
    ++ (match item with
      | some c => [Act.recv c]
      | none => [])
    ++ stopRecvs (i + 1) rest

/-- What a call of `Stop` does: its actions in program order, and the `error`
it returns (`none` is Go `nil`). -/
structure StopResult where
  script : List Act
  ret : Option String
deriving DecidableEq

/-- Model of `CrawlerModule.Stop`, called with the package variables `g`. The
two slices are read when `Stop` is entered; in the source the second loop reads
`quitChannels` when it starts, which is the same slice, since only `Start`
assigns it. -/
def Stop (g : Globals) : StopResult :=
  if g.started then
    ⟨[Act.setStarted false, Act.log Level.debug [LogArg.str "start shutting down crawler"]]
      ++ stopSends 0 g.signalChannels ++ stopRecvs 0 g.quitChannels, none⟩
  else
    ⟨[Act.log Level.error [LogArg.str "crawler is not started, please start it first."]], none⟩

/-! ## `execute` -/

/-- The value a stage panics with: a `runtime.Error`, or any other value.
(`panic(nil)` is left out: what `recover` gives for it depends on the Go
release.) -/
inductive PanicValue
  | runtimeError (err : String)
  | other (v : String)
deriving DecidableEq

/-- How `Run` ends: it returns (all stages ran, or a stage halted the chain),
or a stage panics. -/
inductive RunOutcome
  | completed
  | halted
  | panicked (v : PanicValue)
deriving DecidableEq

/-- What `core/pipeline` contributes to one call of `execute`: the identifier of
the new pipeline and the outcome of its run. -/
structure PipelineRun where
  id : String
  outcome : RunOutcome
deriving DecidableEq

/-- How `execute` ends: it returns, or the panic leaves it. -/
inductive Exit
  | returned
  | panicking (v : PanicValue)
deriving DecidableEq

/-- What a call of `execute` does. -/
structure ExecResult where
  script : List Act
  exit : Exit
deriving DecidableEq

/-- The pipeline `execute` builds for `taskId`. -/
def crawlerPipeline (taskId : String) (env : Env) (id : String) : Pipeline :=
  ((((((((((NewPipeline "crawler" id).Context ⟨env⟩).Start (Joint.Start taskId)).Join
    (Joint.UrlNormalizationJoint true)).Join
    Joint.UrlFilterJoint).Join
    Joint.LoadMetadataJoint).Join
    (Joint.IgnoreTimeoutJoint 100)).Join
    Joint.FetchJoint).Join
    (Joint.ParserJoint true 3)).Join
    (Joint.SaveToDBJoint true)).Join
    Joint.PublishJoint |>.End Joint.End

/-- The statements of `execute` after `Run()` has returned. -/
def afterRun (env : Env) : List Act :=
  (if env.RuntimeConfig.TaskConfig.FetchDelayThreshold > 0 then
    [Act.log Level.debug [LogArg.str "sleep ",
        LogArg.int env.RuntimeConfig.TaskConfig.FetchDelayThreshold,
        LogArg.str "ms to control crawling speed"],
     Act.sleep (toInt64 (env.RuntimeConfig.TaskConfig.FetchDelayThreshold * 1000000)),
     Act.log Level.debug [LogArg.str "wake up now,continue crawing"]]
   else [])
  ++ [Act.log Level.trace [LogArg.str "end crawler"]]

/-- The deferred function of `execute`; `r` is the panic under way, if any. -/
def deferred (taskId : String) (env : Env) (id : String) (r : Option PanicValue) :
    List Act × Exit :=
  if !env.IsDebug then
    match r with
    | some (PanicValue.runtimeError err) =>
      ([Act.wgDone,
        Act.log Level.error [LogArg.str "pipeline: ", LogArg.str id, LogArg.str ", taskId: ",
          LogArg.str taskId, LogArg.str ", ", LogArg.str err],
        Act.log Level.error [LogArg.str "error in crawler"]], Exit.returned)
    | some (PanicValue.other _) =>
      ([Act.wgDone, Act.log Level.error [LogArg.str "error in crawler"]], Exit.returned)
    | none => ([Act.wgDone], Exit.returned)
  else
    match r with
    | some v => ([Act.wgDone], Exit.panicking v)
    | none => ([Act.wgDone], Exit.returned)

/-- Model of `execute(taskId, env, wg)`; `w` is what the pipeline package does
in this call. -/
def execute (taskId : String) (env : Env) (w : PipelineRun) : ExecResult :=
  let pipeline := crawlerPipeline taskId env w.id
  match w.outcome with
  | RunOutcome.panicked v =>
    ⟨[Act.wgAdd 1, Act.run pipeline] ++ (deferred taskId env w.id (some v)).1,
      (deferred taskId env w.id (some v)).2⟩
  | _ =>
    ⟨[Act.wgAdd 1, Act.run pipeline] ++ afterRun env ++ (deferred taskId env w.id none).1,
      (deferred taskId env w.id none).2⟩

/-! ## Measures on action sequences -/

/-- The WaitGroup counter after the actions `as`, starting from `c`. -/
def wgAfter (c : Int) : List Act → Int
  | [] => c
  | Act.wgAdd n :: rest => wgAfter (c + n) rest
  | Act.wgDone :: rest => wgAfter (c - 1) rest
  | _ :: rest => wgAfter c rest

/-- Time spent in `time.Sleep` by the actions, in nanoseconds; `time.Sleep`
returns at once on a duration that is zero or negative. -/
def sleptNs : List Act → Int
  | [] => 0
  | Act.sleep d :: rest => (if d ≤ 0 then 0 else d) + sleptNs rest
  | _ :: rest => sleptNs rest

/-- The action is a `time.Sleep`. -/
def Act.isSleep : Act → Bool
  | Act.sleep _ => true
  | _ => false

/-- The action is a send or a receive on a channel. -/
def Act.isMailbox : Act → Bool
  | Act.send _ _ => true
  | Act.recv _ => true
  | _ => false

/-- The action is a call of `Run` on a pipeline. -/
def Act.isRun : Act → Bool
  | Act.run _ => true
  | _ => false

/-- The action is a log call. -/
def Act.isLog : Act → Bool
  | Act.log _ _ => true
  | _ => false

/-- The action is an error-level log call. -/
def Act.isErrorLog : Act → Bool
  | Act.log Level.error _ => true
  | _ => false

/-- The action is a `wg.Add`. -/
def Act.isWgAdd : Act → Bool
  | Act.wgAdd _ => true
  | _ => false

/-- The action is a `wg.Done`. -/
def Act.isWgDone : Act → Bool
  | Act.wgDone => true
  | _ => false

/-- No action of the list touches the WaitGroup. -/
def wgFree (l : List Act) : Prop := ∀ a ∈ l, a.isWgAdd = false ∧ a.isWgDone = false

/-- `Run` comes back to `execute` (no stage panicked). -/
def RunOutcome.returns : RunOutcome → Bool
  | RunOutcome.panicked _ => false
  | _ => true

/-- The package variables after an action of `Stop`. -/
def Act.onGlobals (g : Globals) : Act → Globals
  | Act.setStarted b => { g with started := b }
  | _ => g

/-- The actions of one worker running the tasks it dequeues one after the
other; a panic that leaves `execute` ends the sequence. -/
def workerRun (env : Env) : List (String × PipelineRun) → List Act
  | [] => []
  | (taskId, w) :: rest =>
    match (execute taskId env w).exit with
    | Exit.returned => (execute taskId env w).script ++ workerRun env rest
    | Exit.panicking _ => (execute taskId env w).script

/-! ## Interleaving semantics of `Stop` and the workers

The parties are the goroutine that calls `Stop`, the control path and the inner
goroutine of every `runPipeline`, and the producer of the queue. A step is one
statement of one party; `execute` and `Stop` advance by one of their actions.
The log calls of `runPipeline` change nothing and are not steps of their own.
`Start` is taken as a whole (`boot`): what a worker can do while `Start` is
still in its loop it can do as well right after `Start` has returned, except
for idling in the `default` branch on `started = false`. -/

/-- Send on a buffered channel: `none` when the buffer is full (the sender
blocks). -/
def Mem.send (m : Mem) (c : Nat) (v : Bool) : Option Mem :=
  if (m.heap c).buf.length < (m.heap c).cap then
    some ⟨fun a => if a = c then ⟨(m.heap c).cap, (m.heap c).buf ++ [v]⟩ else m.heap a, m.next⟩
  else none

/-- Receive on a buffered channel: `none` when the buffer is empty (the receiver
blocks). -/
def Mem.recv (m : Mem) (c : Nat) : Option Mem :=
  match (m.heap c).buf with
  | [] => none
  | _ :: rest => some ⟨fun a => if a = c then ⟨(m.heap c).cap, rest⟩ else m.heap a, m.next⟩

/-- Where the control path of `runPipeline` stands (the statement it does
next). -/
inductive OuterPc
  | makeQuit
  | goInner
  | recvSignal
  | sendQuit
  | wgWait
  | sendAck
  | finished
deriving DecidableEq

/-- Where the goroutine started inside `runPipeline` stands. -/
inductive InnerPc
  | idle
  | select
  | testStarted
  | pop
  | call (taskID : String)
  | exec (taskID : String) (rest : List Act) (exit : Exit)
  | returned
deriving DecidableEq

/-- One call of `runPipeline`: its arguments, its locals `quit` and `wg`, and
its two program counters. -/
structure Worker where
  shard : Nat
  signalC : Nat
  quitC : Nat
  quit : Option Nat
  wg : Int
  outer : OuterPc
  inner : InnerPc
deriving DecidableEq

/-- State of the whole system. `main` is `none` until `Stop` is called, then the
actions of `Stop` still to do; `performed` are the ones already done. -/
structure State where
  g : Globals
  mem : Mem
  queue : List String
  main : Option (List Act)
  performed : List Act
  workers : List Worker
  crashed : Bool

/-- Who moves next. -/
inductive Action
  | callStop
  | stop
  | outer (i : Nat)
  | inner (i : Nat)
  | push (taskID : String)
deriving DecidableEq

/-- One action of `Stop` on the state. -/
def stepStop (a : Act) (rest : List Act) (s : State) : Option State :=
  match a with
  | Act.setStarted b =>
    some { s with g := { s.g with started := b }, main := some rest,
                  performed := s.performed ++ [a] }
  | Act.log _ _ => some { s with main := some rest, performed := s.performed ++ [a] }
  | Act.send c v =>
    (s.mem.send c v).map fun m =>
      { s with mem := m, main := some rest, performed := s.performed ++ [a] }
  | Act.recv c =>
    (s.mem.recv c).map fun m =>
      { s with mem := m, main := some rest, performed := s.performed ++ [a] }
  | _ => none

/-- One statement of the control path of `runPipeline`. -/
def stepOuter (w : Worker) (m : Mem) : Option (Worker × Mem) :=
  match w.outer with
  | OuterPc.makeQuit => some ({ w with quit := some m.next, outer := OuterPc.goInner }, m.make 1)
  | OuterPc.goInner => some ({ w with inner := InnerPc.select, outer := OuterPc.recvSignal }, m)
  | OuterPc.recvSignal =>
    (m.recv w.signalC).map fun m1 => ({ w with outer := OuterPc.sendQuit }, m1)
  | OuterPc.sendQuit =>
    match w.quit with
    | some q => (m.send q true).map fun m1 => ({ w with outer := OuterPc.wgWait }, m1)
    | none => none
  | OuterPc.wgWait => if w.wg = 0 then some ({ w with outer := OuterPc.sendAck }, m) else none
  | OuterPc.sendAck =>
    (m.send w.quitC true).map fun m1 => ({ w with outer := OuterPc.finished }, m1)
  | OuterPc.finished => none

/-- What one step of the inner goroutine gives. -/
structure InnerStep where
  w : Worker
  mem : Mem
  queue : List String
  crashed : Bool

/-- One statement of the goroutine started inside `runPipeline`; inside
`execute`, one action of it. -/
def stepInner (oracle : String → PipelineRun) (env : Env) (started : Bool) (w : Worker)
    (m : Mem) (queue : List String) : Option InnerStep :=
  match w.inner with
  | InnerPc.idle => none
  | InnerPc.select =>
    match w.quit with
    | some q =>
      match m.recv q with
      | some m1 => some ⟨{ w with inner := InnerPc.returned }, m1, queue, false⟩
      | none => some ⟨{ w with inner := InnerPc.testStarted }, m, queue, false⟩
    | none => none
  | InnerPc.testStarted =>
    if started then some ⟨{ w with inner := InnerPc.pop }, m, queue, false⟩
    else some ⟨{ w with inner := InnerPc.select }, m, queue, false⟩
  | InnerPc.pop =>
    match queue with
    | [] => none
    | taskID :: rest => some ⟨{ w with inner := InnerPc.call taskID }, m, rest, false⟩
  | InnerPc.call taskID =>
    some ⟨{ w with inner := InnerPc.exec taskID (execute taskID env (oracle taskID)).script
                              (execute taskID env (oracle taskID)).exit }, m, queue, false⟩
  | InnerPc.exec taskID (Act.wgAdd n :: rest) e =>
    some ⟨{ w with wg := w.wg + n, inner := InnerPc.exec taskID rest e }, m, queue, false⟩
  | InnerPc.exec taskID (Act.wgDone :: rest) e =>
    some ⟨{ w with wg := w.wg - 1, inner := InnerPc.exec taskID rest e }, m, queue, false⟩
  | InnerPc.exec taskID (_ :: rest) e =>
    some ⟨{ w with inner := InnerPc.exec taskID rest e }, m, queue, false⟩
  | InnerPc.exec _ [] Exit.returned => some ⟨{ w with inner := InnerPc.select }, m, queue, false⟩
  | InnerPc.exec _ [] (Exit.panicking _) => some ⟨w, m, queue, true⟩
  | InnerPc.returned => none

/-- One step of the system; `none` when the chosen party cannot move (it is
blocked, it has ended, or the process has died of a panic). -/
def step (oracle : String → PipelineRun) (env : Env) (a : Action) (s : State) : Option State :=
  if s.crashed then none
  else
    match a with
    | Action.callStop =>
      match s.main with
      | none => some { s with main := some (Stop s.g).script }
      | some _ => none
    | Action.stop =>
      match s.main with
      | some (x :: rest) => stepStop x rest s
      | _ => none
    | Action.outer i =>
      match s.workers[i]? with
      | some w =>
        (stepOuter w s.mem).map fun r => { s with workers := s.workers.set i r.1, mem := r.2 }
      | none => none
    | Action.inner i =>
      match s.workers[i]? with
      | some w =>
        (stepInner oracle env s.g.started w s.mem s.queue).map fun r =>
          { s with workers := s.workers.set i r.w, mem := r.mem, queue := r.queue,
                   crashed := r.crashed }
      | none => none
    | Action.push taskID => some { s with queue := s.queue ++ [taskID] }

/-- Run a schedule; `none` when one of its steps cannot be taken. -/
def runSchedule (oracle : String → PipelineRun) (env : Env) : List Action → State → Option State
  | [], s => some s
  | a :: rest, s => (step oracle env a s).bind (runSchedule oracle env rest)

/-- The worker that a `go runPipeline(env, &signalC, &quitC, i)` starts. -/
def Spawn.worker (sp : Spawn) : Worker :=
  ⟨sp.shard, sp.signalC, sp.quitC, none, 0, OuterPc.makeQuit, InnerPc.idle⟩

/-- The system right after `Start` has returned `st`, with `queue` waiting in
the fetch channel: `Stop` not yet called, every worker at its first statement. -/
def boot (st : StartState) (queue : List String) : State :=
  ⟨st.g, st.mem, queue, none, [], st.spawned.map Spawn.worker, false⟩

/-- `Stop` has been called and has returned. -/
def State.stopReturned (s : State) : Bool :=
  match s.main with
  | some [] => true
  | _ => false

/-- The actions of `Stop` performed so far that touch a channel. -/
def State.mailboxOps (s : State) : List Act :=
  s.performed.filter Act.isMailbox

/-! ## Invariant of the stop handshake -/

/-- Channels the sends among the actions go to, in order. -/
def sendTargets : List Act → List Nat
  | [] => []
  | Act.send c _ :: rest => c :: sendTargets rest
  | _ :: rest => sendTargets rest

/-- Channels `Stop` has still to send a stop-request to: all of them before
`Stop` is called, then those of the actions left. `g0` are the package
variables `Start` left. -/
def pending (g0 : Globals) (s : State) : List Nat :=
  match s.main with
  | none => sendTargets (Stop g0).script
  | some rest => sendTargets rest

/-- Facts about the actions of `Stop` on the package variables `g0` that `Start`
left: `sigP` holds of the stop-request channels, which lie below `top`. -/
structure ScriptOk (g0 : Globals) (sigP : Nat → Prop) (top : Nat) : Prop where
  started : g0.started = true
  nodup : (sendTargets (Stop g0).script).Nodup
  send_sig : ∀ a ∈ sendTargets (Stop g0).script, sigP a
  recv_not : ∀ c, Act.recv c ∈ (Stop g0).script → ¬ sigP c
  set_false : ∀ b, Act.setStarted b ∈ (Stop g0).script → b = false
  sig_lt : ∀ a, sigP a → a < top

/-- Invariant of the system from the return of `Start` on. -/
structure Inv (g0 : Globals) (sigP : Nat → Prop) (top : Nat) (s : State) : Prop where
  next_ge : top ≤ s.mem.next
  workers_ok : ∀ w ∈ s.workers, ¬ sigP w.quitC ∧ ∀ q, w.quit = some q → top ≤ q
  sig_eq : s.g.signalChannels = g0.signalChannels
  quit_eq : s.g.quitChannels = g0.quitChannels
  idle : s.main = none → s.g.started = true ∧ s.performed = []
  inStop : ∀ rest, s.main = some rest →
    s.performed ++ rest = (Stop g0).script
      ∧ (s.performed = [] → s.g.started = true) ∧ (s.performed ≠ [] → s.g.started = false)
  pend_empty : ∀ a ∈ pending g0 s, s.mem.heap a = ⟨1, []⟩

/-- The control path has got its stop-request (it is past `<-*signalC`). -/
def OuterPc.pastRecv : OuterPc → Bool
  | OuterPc.sendQuit => true
  | OuterPc.wgWait => true
  | OuterPc.sendAck => true
  | OuterPc.finished => true
  | _ => false

/-- Invariant of the handshake channels, the channels allocated by `Start` from
`base` on for `n` workers: worker `i` holds the channels `base + 2i` and
`base + 2i + 1`; its stop-ack channel holds a value only once its control
path has posted the ack; once `Stop` has received on it, the ack was posted and
the channel is empty again; and a stop-request is in the channel of a worker,
or was got by it, only when `Stop` has sent it. -/
structure Hand (base n : Nat) (s : State) : Prop where
  len : s.workers.length = n
  addr : ∀ (i : Nat) (w : Worker), s.workers[i]? = some w → w.signalC = base + 2 * i ∧ w.quitC = base + 2 * i + 1
  ack : ∀ (i : Nat) (w : Worker), s.workers[i]? = some w →
    s.mem.heap w.quitC = ⟨1, []⟩
      ∨ (s.mem.heap w.quitC = ⟨1, [true]⟩ ∧ w.outer = OuterPc.finished)
  taken : ∀ (i : Nat) (w : Worker), s.workers[i]? = some w → Act.recv w.quitC ∈ s.performed →
    w.outer = OuterPc.finished ∧ s.mem.heap w.quitC = ⟨1, []⟩
  req : ∀ (i : Nat) (w : Worker), s.workers[i]? = some w →
    ((s.mem.heap w.signalC).buf ≠ [] ∨ w.outer.pastRecv = true) →
      w.signalC ∈ sendTargets s.performed

/-! ## Concrete inputs -/

/-- A configuration with one worker, not in debug mode, no delay. -/
def envOne : Env := ⟨false, ⟨1, ⟨true⟩, ⟨0⟩⟩⟩

/-- A configuration with one worker, not in debug mode, and a delay of 5 ms. -/
def envDelay : Env := ⟨false, ⟨1, ⟨true⟩, ⟨5⟩⟩⟩

/-- An empty channel store. -/
def memEmpty : Mem := ⟨fun _ => ⟨0, []⟩, 0⟩

/-- The package variables when the program starts. -/
def globalsInit : Globals := ⟨false, [], []⟩

/-- One task is waiting; the worker dequeues it (up to the return of
`queue.Pop`), then `Stop` runs up to its wait for the ack, the control path of
the worker goes through to the ack, and `Stop` returns. -/
def raceSchedule : List Action :=
  [Action.outer 0, Action.outer 0, Action.inner 0, Action.inner 0, Action.inner 0,
   Action.callStop, Action.stop, Action.stop, Action.stop, Action.stop, Action.stop,
   Action.outer 0, Action.outer 0, Action.outer 0, Action.outer 0,
   Action.stop]

/-- The queue is empty and the worker blocks in `queue.Pop`; `Stop` runs and
returns; then a task arrives and the worker takes it and enters `execute`. -/
def lateSchedule : List Action :=
  [Action.outer 0, Action.outer 0, Action.inner 0, Action.inner 0,
   Action.callStop, Action.stop, Action.stop, Action.stop, Action.stop, Action.stop,
   Action.outer 0, Action.outer 0, Action.outer 0, Action.outer 0,
   Action.stop,
   Action.push "t", Action.inner 0, Action.inner 0, Action.inner 0]

/-- What `Start` leaves on the initial package variables with `envOne`. -/
def startedOne : StartState :=
  ⟨⟨true, [some 0], [some 1]⟩, (memEmpty.make 1).make 1, [⟨0, 1, 0⟩],
    [(Level.trace, [LogArg.str "start crawler:", LogArg.int 0])]⟩

/-- Every pipeline run completes. -/
def oracleOk : String → PipelineRun := fun _ => ⟨"p", RunOutcome.completed⟩

/-- Where the inner goroutine stands, without the actions left in `execute`:
`holding t` is between the return of `queue.Pop` with `t` and the call of
`execute`, `executing t` is inside `execute`. -/
inductive Phase
  | notStarted
  | polling
  | holding (taskID : String)
  | executing (taskID : String)
  | returned
deriving DecidableEq

/-- The phase of a program counter of the inner goroutine. -/
def InnerPc.phase : InnerPc → Phase
  | InnerPc.idle => Phase.notStarted
  | InnerPc.select => Phase.polling
  | InnerPc.testStarted => Phase.polling
  | InnerPc.pop => Phase.polling
  | InnerPc.call t => Phase.holding t
  | InnerPc.exec t _ _ => Phase.executing t
  | InnerPc.returned => Phase.returned

/-- What is looked at in a state: has `Stop` returned, and per worker where the
control path stands, the phase of the inner goroutine, and the WaitGroup
counter. -/
def State.view (s : State) : Bool × List (OuterPc × Phase × Int) :=
  (s.stopReturned, s.workers.map fun w => (w.outer, w.inner.phase, w.wg))

/-! ## The pipeline built by `execute` -/

theorem afterRun_filter_run (env : Env) : (afterRun env).filter Act.isRun = [] := by
  unfold afterRun
  split <;> simp [Act.isRun]

theorem deferred_filter_run (taskId : String) (env : Env) (id : String) (r : Option PanicValue) :
    (deferred taskId env id r).1.filter Act.isRun = [] := by
  obtain ⟨dbg, rc⟩ := env
  cases dbg <;> rcases r with _ | v
  · simp [deferred, Act.isRun]
  · cases v <;> simp [deferred, Act.isRun]
  · simp [deferred, Act.isRun]
  · simp [deferred, Act.isRun]

/-- Claim C10. Whatever the task, the environment and the outcome, `execute`
runs exactly one pipeline, built in that call: it is named "crawler", its
context holds the environment, and its stages are, in order, the seed with the
task id, URL normalization, URL filter, load metadata, ignore after 100
timeouts, fetch, parse with link dispatch to depth 3, save to DB with
compression, publish, end. -/
theorem execute_builds_reference_pipeline (taskId : String) (env : Env) (w : PipelineRun) :
    (execute taskId env w).script.filter Act.isRun
        = [Act.run (crawlerPipeline taskId env w.id)]
      ∧ (crawlerPipeline taskId env w.id).name = "crawler"
      ∧ (crawlerPipeline taskId env w.id).context = some ⟨env⟩
      ∧ (crawlerPipeline taskId env w.id).stages =
          [Joint.Start taskId, Joint.UrlNormalizationJoint true, Joint.UrlFilterJoint,
           Joint.LoadMetadataJoint, Joint.IgnoreTimeoutJoint 100, Joint.FetchJoint,
           Joint.ParserJoint true 3, Joint.SaveToDBJoint true, Joint.PublishJoint,
           Joint.End] := by
  refine ⟨?_, ?_, ?_, ?_⟩
  · obtain ⟨id, out⟩ := w
    cases out <;>
      simp [execute, List.filter_append, afterRun_filter_run, deferred_filter_run, Act.isRun]
  · simp [crawlerPipeline, Pipeline.Join, Pipeline.End, Pipeline.Start,
      Pipeline.Context, NewPipeline]
  · simp [crawlerPipeline, Pipeline.Join, Pipeline.End, Pipeline.Start,
      Pipeline.Context, NewPipeline]
  · simp [crawlerPipeline, Pipeline.stages, Pipeline.Join, Pipeline.End, Pipeline.Start,
      Pipeline.Context, NewPipeline]

/-! ## The in-flight counter -/

theorem wgAfter_append (c : Int) (l₁ l₂ : List Act) :
    wgAfter c (l₁ ++ l₂) = wgAfter (wgAfter c l₁) l₂ := by
  induction l₁ generalizing c with
  | nil => rfl
  | cons a l ih => cases a <;> simp [wgAfter, ih]

theorem wgAfter_wgFree (c : Int) (l : List Act) (h : wgFree l) : wgAfter c l = c := by
  induction l with
  | nil => rfl
  | cons a l ih =>
    have ha := h a (List.mem_cons_self a l)
    have hl : wgFree l := fun b hb => h b (List.mem_cons_of_mem a hb)
    cases a <;> simp_all [wgAfter, Act.isWgAdd, Act.isWgDone]

theorem wgFree_take (l : List Act) (k : Nat) (h : wgFree l) : wgFree (l.take k) :=
  fun a ha => h a (List.mem_of_mem_take ha)

theorem wgFree_afterRun (env : Env) : wgFree (afterRun env) := by
  unfold wgFree afterRun
  split <;> simp [Act.isWgAdd, Act.isWgDone]

/-- Shape of the actions of `execute`: the `wg.Add(1)`, actions that leave the
WaitGroup alone, the `wg.Done()`, and again actions that leave it alone. -/
theorem execute_shape (taskId : String) (env : Env) (w : PipelineRun) :
    ∃ mid post, (execute taskId env w).script = Act.wgAdd 1 :: (mid ++ Act.wgDone :: post)
      ∧ wgFree mid ∧ wgFree post := by
  obtain ⟨id, out⟩ := w
  obtain ⟨dbg, rc⟩ := env
  have hA := wgFree_afterRun ⟨dbg, rc⟩
  cases out with
  | completed =>
    refine ⟨Act.run (crawlerPipeline taskId ⟨dbg, rc⟩ id) :: afterRun ⟨dbg, rc⟩, [], ?_, ?_, ?_⟩
    · cases dbg <;> simp [execute, deferred]
    · intro a ha
      rcases List.mem_cons.1 ha with h | h
      · subst h; simp [Act.isWgAdd, Act.isWgDone]
      · exact hA a h
    · simp [wgFree]
  | halted =>
    refine ⟨Act.run (crawlerPipeline taskId ⟨dbg, rc⟩ id) :: afterRun ⟨dbg, rc⟩, [], ?_, ?_, ?_⟩
    · cases dbg <;> simp [execute, deferred]
    · intro a ha
      rcases List.mem_cons.1 ha with h | h
      · subst h; simp [Act.isWgAdd, Act.isWgDone]
      · exact hA a h
    · simp [wgFree]
  | panicked v =>
    refine ⟨[Act.run (crawlerPipeline taskId ⟨dbg, rc⟩ id)],
      ((deferred taskId ⟨dbg, rc⟩ id (some v)).1).tail, ?_, ?_, ?_⟩
    · cases dbg <;> cases v <;> simp [execute, deferred]
    · simp [wgFree, Act.isWgAdd, Act.isWgDone]
    · cases dbg <;> cases v <;> simp [wgFree, deferred, Act.isWgAdd, Act.isWgDone]

theorem wgAfter_shape_take (c : Int) (mid post : List Act) (hm : wgFree mid)
    (hp : wgFree post) (k : Nat) :
    c ≤ wgAfter c ((Act.wgAdd 1 :: (mid ++ Act.wgDone :: post)).take k)
      ∧ wgAfter c ((Act.wgAdd 1 :: (mid ++ Act.wgDone :: post)).take k) ≤ c + 1 := by
  cases k with
  | zero => simp [wgAfter]
  | succ k =>
    rw [List.take_succ_cons]
    simp only [wgAfter]
    rw [List.take_append_eq_append_take, wgAfter_append,
      wgAfter_wgFree _ _ (wgFree_take _ _ hm)]
    cases hk : k - mid.length with
    | zero => simp [wgAfter]
    | succ j =>
      rw [List.take_succ_cons]
      simp only [wgAfter]
      rw [wgAfter_wgFree _ _ (wgFree_take _ _ hp)]
      omega

theorem wgAfter_shape (c : Int) (mid post : List Act) (hm : wgFree mid) (hp : wgFree post) :
    wgAfter c (Act.wgAdd 1 :: (mid ++ Act.wgDone :: post)) = c := by
  simp only [wgAfter]
  rw [wgAfter_append, wgAfter_wgFree _ _ hm]
  simp only [wgAfter]
  rw [wgAfter_wgFree _ _ hp]
  omega

theorem filter_wgFree_add (l : List Act) (h : wgFree l) : l.filter Act.isWgAdd = [] := by
  rw [List.filter_eq_nil_iff]
  intro a ha
  simp [(h a ha).1]

theorem filter_wgFree_done (l : List Act) (h : wgFree l) : l.filter Act.isWgDone = [] := by
  rw [List.filter_eq_nil_iff]
  intro a ha
  simp [(h a ha).2]

theorem workerRun_wg (env : Env) (tasks : List (String × PipelineRun)) :
    wgAfter 0 (workerRun env tasks) = 0
      ∧ ∀ k, 0 ≤ wgAfter 0 ((workerRun env tasks).take k)
          ∧ wgAfter 0 ((workerRun env tasks).take k) ≤ 1 := by
  induction tasks with
  | nil => simp [workerRun, wgAfter]
  | cons tw rest ih =>
    obtain ⟨taskId, w⟩ := tw
    obtain ⟨mid, post, hs, hm, hp⟩ := execute_shape taskId env w
    have hfin := wgAfter_shape 0 mid post hm hp
    have hpre := wgAfter_shape_take 0 mid post hm hp
    rw [← hs] at hfin hpre
    cases he : (execute taskId env w).exit with
    | panicking v =>
      simp only [workerRun, he]
      exact ⟨hfin, fun k => by simpa using hpre k⟩
    | returned =>
      simp only [workerRun, he]
      refine ⟨by rw [wgAfter_append, hfin]; exact ih.1, fun k => ?_⟩
      rw [List.take_append_eq_append_take, wgAfter_append]
      by_cases hk : k ≤ (execute taskId env w).script.length
      · have : k - (execute taskId env w).script.length = 0 := by omega
        rw [this]
        simpa [wgAfter] using hpre k
      · rw [List.take_of_length_le (by omega), hfin]
        exact ih.2 _

/-- Order of the actions of `execute`: the `wg.Add(1)`, the run of the
pipeline, then log calls and the sleep, the `wg.Done()`, and after it error logs
only. When `Run` returns nothing follows the `wg.Done()`; when it panics the
`wg.Done()` comes right after the run. -/
theorem execute_order (taskId : String) (env : Env) (w : PipelineRun) :
    ∃ mid post, (execute taskId env w).script
        = Act.wgAdd 1 :: Act.run (crawlerPipeline taskId env w.id)
            :: (mid ++ Act.wgDone :: post)
      ∧ (∀ a ∈ mid, a.isLog = true ∨ a.isSleep = true)
      ∧ (∀ a ∈ post, a.isErrorLog = true)
      ∧ (w.outcome.returns = true → post = [])
      ∧ (w.outcome.returns = false → mid = []) := by
  obtain ⟨id, out⟩ := w
  obtain ⟨dbg, rc⟩ := env
  have hA : ∀ a ∈ afterRun ⟨dbg, rc⟩, a.isLog = true ∨ a.isSleep = true := by
    unfold afterRun
    split <;> simp [Act.isLog, Act.isSleep]
  cases out with
  | completed =>
    refine ⟨afterRun ⟨dbg, rc⟩, [], ?_, hA, by simp, fun _ => rfl, ?_⟩
    · cases dbg <;> simp [execute, deferred]
    · simp [RunOutcome.returns]
  | halted =>
    refine ⟨afterRun ⟨dbg, rc⟩, [], ?_, hA, by simp, fun _ => rfl, ?_⟩
    · cases dbg <;> simp [execute, deferred]
    · simp [RunOutcome.returns]
  | panicked v =>
    refine ⟨[], ((deferred taskId ⟨dbg, rc⟩ id (some v)).1).tail, ?_, by simp, ?_, ?_,
      fun _ => rfl⟩
    · cases dbg <;> cases v <;> simp [execute, deferred]
    · cases dbg <;> cases v <;> simp [deferred, Act.isErrorLog]
    · simp [RunOutcome.returns]

/-- Claim C8. Whatever the task, the environment and the outcome, the first
action of `execute` is `wg.Add(1)`, it is its only `Add`, and it performs
exactly one `wg.Done()`; the counter is back at its value `c` at the end, and
stays between `c` and `c + 1` meanwhile. For a worker running its tasks one
after the other from a counter of 0, the counter is 0 or 1 at every point. The
`wg.Done()` is made on exit: it comes after the run of the pipeline and after
the log calls and the sleep that follow a run that returns, and only the error
logs of the deferred function come after it; when `Run` returns it is the last
action of `execute`, when `Run` panics it follows the run at once. -/
theorem execute_inflight_balanced (taskId : String) (env : Env) (w : PipelineRun) (c : Int) :
    (execute taskId env w).script.head? = some (Act.wgAdd 1)
      ∧ (execute taskId env w).script.filter Act.isWgAdd = [Act.wgAdd 1]
      ∧ (execute taskId env w).script.filter Act.isWgDone = [Act.wgDone]
      ∧ wgAfter c (execute taskId env w).script = c
      ∧ (∀ k, c ≤ wgAfter c ((execute taskId env w).script.take k)
            ∧ wgAfter c ((execute taskId env w).script.take k) ≤ c + 1)
      ∧ (∀ tasks : List (String × PipelineRun), ∀ k,
          0 ≤ wgAfter 0 ((workerRun env tasks).take k)
            ∧ wgAfter 0 ((workerRun env tasks).take k) ≤ 1)
      ∧ ∃ mid post, (execute taskId env w).script
            = Act.wgAdd 1 :: Act.run (crawlerPipeline taskId env w.id)
                :: (mid ++ Act.wgDone :: post)
          ∧ (∀ a ∈ mid, a.isLog = true ∨ a.isSleep = true)
          ∧ (∀ a ∈ post, a.isErrorLog = true)
          ∧ (w.outcome.returns = true → post = [])
          ∧ (w.outcome.returns = false → mid = []) := by
  obtain ⟨mid, post, hs, hm, hp⟩ := execute_shape taskId env w
  refine ⟨?_, ?_, ?_, ?_, ?_, fun tasks => (workerRun_wg env tasks).2,
    execute_order taskId env w⟩
  all_goals rw [hs]
  · rfl
  rotate_left 2
  · exact wgAfter_shape c mid post hm hp
  · exact wgAfter_shape_take c mid post hm hp
  · simp [List.filter_cons, List.filter_append, Act.isWgAdd, filter_wgFree_add _ hm,
      filter_wgFree_add _ hp]
  · simp [List.filter_cons, List.filter_append, Act.isWgDone, filter_wgFree_done _ hm,
      filter_wgFree_done _ hp]

/-! ## Rate limiting -/

theorem sleptNs_append (l₁ l₂ : List Act) : sleptNs (l₁ ++ l₂) = sleptNs l₁ + sleptNs l₂ := by
  induction l₁ with
  | nil => simp [sleptNs]
  | cons a l ih => cases a <;> simp [sleptNs, ih]; omega

theorem toInt64_of_range (x : Int) (h0 : 0 ≤ x) (h1 : x < 2 ^ 63) : toInt64 x = x := by
  unfold toInt64
  omega

theorem deferred_filter_sleep (taskId : String) (env : Env) (id : String)
    (r : Option PanicValue) : (deferred taskId env id r).1.filter Act.isSleep = [] := by
  obtain ⟨dbg, rc⟩ := env
  cases dbg <;> rcases r with _ | v
  · simp [deferred, Act.isSleep]
  · cases v <;> simp [deferred, Act.isSleep]
  · simp [deferred, Act.isSleep]
  · simp [deferred, Act.isSleep]

theorem deferred_sleptNs (taskId : String) (env : Env) (id : String)
    (r : Option PanicValue) : sleptNs (deferred taskId env id r).1 = 0 := by
  obtain ⟨dbg, rc⟩ := env
  cases dbg <;> rcases r with _ | v
  · simp [deferred, sleptNs]
  · cases v <;> simp [deferred, sleptNs]
  · simp [deferred, sleptNs]
  · simp [deferred, sleptNs]

theorem deferred_exit_none (taskId : String) (env : Env) (id : String) :
    (deferred taskId env id none).2 = Exit.returned := by
  obtain ⟨dbg, rc⟩ := env
  cases dbg <;> simp [deferred]

theorem execute_filter_sleep (taskId : String) (env : Env) (w : PipelineRun) :
    (execute taskId env w).script.filter Act.isSleep =
      (if 0 < env.RuntimeConfig.TaskConfig.FetchDelayThreshold ∧ w.outcome.returns = true then
        [Act.sleep (toInt64 (env.RuntimeConfig.TaskConfig.FetchDelayThreshold * 1000000))]
       else []) := by
  obtain ⟨id, out⟩ := w
  cases out <;>
    simp [execute, List.filter_append, deferred_filter_sleep, Act.isSleep, RunOutcome.returns,
      afterRun] <;>
    split <;> simp_all [Act.isSleep]

theorem execute_sleptNs (taskId : String) (env : Env) (w : PipelineRun) :
    sleptNs (execute taskId env w).script =
      (if 0 < env.RuntimeConfig.TaskConfig.FetchDelayThreshold ∧ w.outcome.returns = true
          ∧ 0 < toInt64 (env.RuntimeConfig.TaskConfig.FetchDelayThreshold * 1000000) then
        toInt64 (env.RuntimeConfig.TaskConfig.FetchDelayThreshold * 1000000)
       else 0) := by
  obtain ⟨id, out⟩ := w
  cases out <;>
    simp [execute, sleptNs_append, deferred_sleptNs, sleptNs, RunOutcome.returns, afterRun] <;>
    split <;> simp_all [sleptNs] <;> omega

theorem execute_exit_returns (taskId : String) (env : Env) (w : PipelineRun)
    (h : w.outcome.returns = true) : (execute taskId env w).exit = Exit.returned := by
  obtain ⟨id, out⟩ := w
  cases out <;> simp_all [execute, deferred_exit_none, RunOutcome.returns]

theorem workerRun_sleptNs (env : Env) (tasks : List (String × PipelineRun))
    (hD : 0 < env.RuntimeConfig.TaskConfig.FetchDelayThreshold)
    (hR : env.RuntimeConfig.TaskConfig.FetchDelayThreshold * 1000000 < 2 ^ 63)
    (ht : ∀ tw ∈ tasks, tw.2.outcome.returns = true) :
    sleptNs (workerRun env tasks)
      = tasks.length * (env.RuntimeConfig.TaskConfig.FetchDelayThreshold * 1000000) := by
  induction tasks with
  | nil => simp [workerRun, sleptNs]
  | cons tw rest ih =>
    obtain ⟨taskId, w⟩ := tw
    have hw : w.outcome.returns = true := ht (taskId, w) (List.mem_cons_self _ _)
    have hrest := ih (fun tw h => ht tw (List.mem_cons_of_mem _ h))
    have hT := toInt64_of_range _
      (by omega : (0:Int) ≤ env.RuntimeConfig.TaskConfig.FetchDelayThreshold * 1000000) hR
    simp only [workerRun, execute_exit_returns taskId env w hw, sleptNs_append, hrest,
      execute_sleptNs, hT, hw, List.length_cons]
    rw [if_pos ⟨hD, trivial, by omega⟩]
    push_cast
    ring

/-- Claim C9, counterexample. With a delay threshold of 5 ms, not in debug mode,
a task whose run panics is contained (`execute` returns) and `execute` does not
sleep at all; two such tasks in a row accumulate no sleep, less than the
(2 − 1) × 5 ms the claim asks for. -/
theorem execute_contained_fault_skips_sleep :
    (execute "a" envDelay ⟨"p", RunOutcome.panicked (PanicValue.runtimeError "nil map")⟩).exit
        = Exit.returned
      ∧ (execute "a" envDelay
          ⟨"p", RunOutcome.panicked (PanicValue.runtimeError "nil map")⟩).script.filter
            Act.isSleep = []
      ∧ sleptNs (workerRun envDelay
          [("a", ⟨"p", RunOutcome.panicked (PanicValue.runtimeError "nil map")⟩),
           ("b", ⟨"q", RunOutcome.panicked (PanicValue.runtimeError "nil map")⟩)])
          < (2 - 1) * (5 * 1000000) := by
  decide

/-- Claim C9, as amended. With `D` the delay threshold: the only sleep of
`execute` is one `time.Sleep(time.Duration(D) * time.Millisecond)`, made when
`D > 0` and `Run` has returned (success or halt), and none otherwise, so none
when `Run` panics. For `0 < D` with `D × 10⁶ < 2⁶³`: after a run that returns
that sleep lasts exactly `D` ms and is the first thing after the run but for a
log call; and `K` sequential tasks whose runs all return accumulate exactly
`K × D` ms of sleep, which is at least `(K − 1) × D` ms. When `D ≤ 0` a worker
never sleeps. -/
theorem execute_sleep_after_returning_run (taskId : String) (env : Env) (w : PipelineRun) :
    (execute taskId env w).script.filter Act.isSleep =
        (if 0 < env.RuntimeConfig.TaskConfig.FetchDelayThreshold ∧ w.outcome.returns = true then
          [Act.sleep (toInt64 (env.RuntimeConfig.TaskConfig.FetchDelayThreshold * 1000000))]
         else [])
      ∧ (0 < env.RuntimeConfig.TaskConfig.FetchDelayThreshold →
          env.RuntimeConfig.TaskConfig.FetchDelayThreshold * 1000000 < 2 ^ 63 →
          w.outcome.returns = true →
            (execute taskId env w).script.filter Act.isSleep =
                [Act.sleep (env.RuntimeConfig.TaskConfig.FetchDelayThreshold * 1000000)]
              ∧ sleptNs (execute taskId env w).script =
                  env.RuntimeConfig.TaskConfig.FetchDelayThreshold * 1000000
              ∧ ∃ post, (execute taskId env w).script =
                  [Act.wgAdd 1, Act.run (crawlerPipeline taskId env w.id),
                   Act.log Level.debug [LogArg.str "sleep ",
                     LogArg.int env.RuntimeConfig.TaskConfig.FetchDelayThreshold,
                     LogArg.str "ms to control crawling speed"],
                   Act.sleep (env.RuntimeConfig.TaskConfig.FetchDelayThreshold * 1000000)]
                  ++ post)
      ∧ (0 < env.RuntimeConfig.TaskConfig.FetchDelayThreshold →
          env.RuntimeConfig.TaskConfig.FetchDelayThreshold * 1000000 < 2 ^ 63 →
          ∀ tasks : List (String × PipelineRun), (∀ tw ∈ tasks, tw.2.outcome.returns = true) →
            sleptNs (workerRun env tasks) =
                tasks.length * (env.RuntimeConfig.TaskConfig.FetchDelayThreshold * 1000000)
              ∧ ((tasks.length : Int) - 1)
                    * (env.RuntimeConfig.TaskConfig.FetchDelayThreshold * 1000000)
                  ≤ sleptNs (workerRun env tasks))
      ∧ (env.RuntimeConfig.TaskConfig.FetchDelayThreshold ≤ 0 →
          ∀ tasks : List (String × PipelineRun),
            (workerRun env tasks).filter Act.isSleep = []) := by
  refine ⟨execute_filter_sleep taskId env w, ?_, ?_, ?_⟩
  · intro hD hR hw
    have hT := toInt64_of_range _
      (by omega : (0:Int) ≤ env.RuntimeConfig.TaskConfig.FetchDelayThreshold * 1000000) hR
    refine ⟨?_, ?_, ?_⟩
    · rw [execute_filter_sleep, if_pos ⟨hD, hw⟩, hT]
    · rw [execute_sleptNs, if_pos ⟨hD, hw, by omega⟩, hT]
    · obtain ⟨id, out⟩ := w
      cases out <;> simp_all [execute, afterRun, RunOutcome.returns]
  · intro hD hR tasks ht
    have h := workerRun_sleptNs env tasks hD hR ht
    refine ⟨h, ?_⟩
    rw [h]
    nlinarith
  · intro hD tasks
    induction tasks with
    | nil => simp [workerRun]
    | cons tw rest ih =>
      obtain ⟨taskId, w⟩ := tw
      have h : (execute taskId env w).script.filter Act.isSleep = [] := by
        rw [execute_filter_sleep, if_neg (by intro h; omega)]
      cases he : (execute taskId env w).exit <;> simp [workerRun, he, h, ih]

/-- Claim C9, witness: a delay of 5 ms and two tasks, one completing and one
halting, give 2 × 5 ms of sleep. -/
theorem execute_sleep_after_returning_run_witness :
    sleptNs (workerRun envDelay
        [("a", ⟨"p", RunOutcome.completed⟩), ("b", ⟨"q", RunOutcome.halted⟩)])
      = 2 * (5 * 1000000) :=
  ((execute_sleep_after_returning_run "a" envDelay ⟨"p", RunOutcome.completed⟩).2.2.1
    (by decide) (by decide)
    [("a", ⟨"p", RunOutcome.completed⟩), ("b", ⟨"q", RunOutcome.halted⟩)] (by decide)).1

/-! ## Fault containment -/

/-- Claim C7, counterexample. Not in debug mode, a panic whose value is not a
`runtime.Error` is logged by the single entry "error in crawler": no log entry
carries the pipeline identifier "p" or the task identifier "a". -/
theorem execute_other_panic_logs_no_ids :
    (execute "a" envOne ⟨"p", RunOutcome.panicked (PanicValue.other "boom")⟩).script.filter
        Act.isErrorLog
      = [Act.log Level.error [LogArg.str "error in crawler"]] := by
  decide

/-- Claim C7, as amended. Not in debug mode, whatever the panic value, `execute`
returns normally and the worker goes on with its next task; it logs "error in
crawler", preceded by an entry with the pipeline identifier and the task
identifier only when the value is a `runtime.Error`. In debug mode nothing is
logged, the panic leaves `execute` and the worker does not go on. -/
theorem execute_fault_containment (taskId id : String) (rc : RuntimeConfig) (v : PanicValue)
    (rest : List (String × PipelineRun)) :
    (execute taskId ⟨false, rc⟩ ⟨id, RunOutcome.panicked v⟩).exit = Exit.returned
      ∧ (execute taskId ⟨false, rc⟩ ⟨id, RunOutcome.panicked v⟩).script.filter Act.isErrorLog
          = (match v with
             | PanicValue.runtimeError err =>
               [Act.log Level.error [LogArg.str "pipeline: ", LogArg.str id,
                  LogArg.str ", taskId: ", LogArg.str taskId, LogArg.str ", ", LogArg.str err],
                Act.log Level.error [LogArg.str "error in crawler"]]
             | PanicValue.other _ => [Act.log Level.error [LogArg.str "error in crawler"]])
      ∧ workerRun ⟨false, rc⟩ ((taskId, ⟨id, RunOutcome.panicked v⟩) :: rest)
          = (execute taskId ⟨false, rc⟩ ⟨id, RunOutcome.panicked v⟩).script
              ++ workerRun ⟨false, rc⟩ rest
      ∧ (execute taskId ⟨true, rc⟩ ⟨id, RunOutcome.panicked v⟩).exit = Exit.panicking v
      ∧ (execute taskId ⟨true, rc⟩ ⟨id, RunOutcome.panicked v⟩).script.filter Act.isErrorLog = []
      ∧ workerRun ⟨true, rc⟩ ((taskId, ⟨id, RunOutcome.panicked v⟩) :: rest)
          = (execute taskId ⟨true, rc⟩ ⟨id, RunOutcome.panicked v⟩).script := by
  cases v <;> simp [execute, deferred, workerRun, Act.isErrorLog]

/-! ## Lifecycle misuse -/

/-- Claim C2, counterexample. On a module that is not running `Stop` returns
`nil`, the same value as on a running module. -/
theorem stop_notRunning_returns_nil :
    (Stop ⟨false, [some 0], [some 1]⟩).ret = none
      ∧ (Stop ⟨false, [some 0], [some 1]⟩).ret = (Stop ⟨true, [some 0], [some 1]⟩).ret := by
  decide

/-- Claim C2, as amended. `Stop` returns `nil` in every state. On a module that
is not running its only action is the error log "crawler is not started, please
start it first.", and it returns after that one action. -/
theorem stop_always_returns_nil (started : Bool) (sig quit : List (Option Nat))
    (oracle : String → PipelineRun) (env : Env) (mem : Mem) (queue : List String)
    (workers : List Worker) :
    (Stop ⟨started, sig, quit⟩).ret = none
      ∧ Stop ⟨false, sig, quit⟩
          = ⟨[Act.log Level.error
                [LogArg.str "crawler is not started, please start it first."]], none⟩
      ∧ (runSchedule oracle env [Action.callStop, Action.stop]
            ⟨⟨false, sig, quit⟩, mem, queue, none, [], workers, false⟩).map State.stopReturned
          = some true := by
  refine ⟨by cases started <;> simp [Stop], by simp [Stop], ?_⟩
  simp [runSchedule, step, Stop, stepStop, State.stopReturned]

/-- Claim C4. `Start` on a running module leaves the package variables and the
channel store as they are and spawns no worker. `Stop` on a stopped module
performs no send and no receive and leaves the package variables as they are:
run in the system, it changes nothing but its own progress. -/
theorem lifecycle_misuse_changes_nothing (oracle : String → PipelineRun) (env : Env)
    (sig quit : List (Option Nat)) (mem : Mem) (queue : List String) (performed : List Act) (workers : List Worker) :
    Start env ⟨true, sig, quit⟩ mem
        = some ⟨⟨true, sig, quit⟩, mem, [],
            [(Level.error, [LogArg.str "crawler already started, please stop it first."])]⟩
      ∧ (Stop ⟨false, sig, quit⟩).script.filter Act.isMailbox = []
      ∧ (Stop ⟨false, sig, quit⟩).script.foldl Act.onGlobals ⟨false, sig, quit⟩
          = ⟨false, sig, quit⟩
      ∧ runSchedule oracle env [Action.callStop, Action.stop]
            ⟨⟨false, sig, quit⟩, mem, queue, none, performed, workers, false⟩
          = some ⟨⟨false, sig, quit⟩, mem, queue, some [],
              performed ++ [Act.log Level.error
                [LogArg.str "crawler is not started, please start it first."]],
              workers, false⟩ := by
  refine ⟨by simp [Start], by simp [Stop, Act.isMailbox], by simp [Stop, Act.onGlobals], ?_⟩
  simp [runSchedule, step, Stop, stepStop]

/-! ## `Start` -/

theorem set_length_append {α : Type} (l : List α) (x a : α) (r : List α) :
    (l ++ x :: r).set l.length a = l ++ a :: r := by
  induction l with
  | nil => rfl
  | cons b l ih => simp [ih]

theorem startBody_next (i : Nat) (st : StartState) :
    (startBody i st).mem.next = st.mem.next + 2 := by
  simp [startBody, Mem.make]

theorem startBody_heap (i : Nat) (st : StartState) (a : Nat) :
    (startBody i st).mem.heap a =
      if a = st.mem.next + 1 then ⟨1, []⟩ else if a = st.mem.next then ⟨1, []⟩
      else st.mem.heap a := by
  simp [startBody, Mem.make]

theorem startLoop_heap (k i : Nat) (st : StartState) :
    (startLoop k i st).mem.next = st.mem.next + 2 * k
      ∧ (∀ a, a < st.mem.next → (startLoop k i st).mem.heap a = st.mem.heap a)
      ∧ (∀ a, st.mem.next ≤ a → a < st.mem.next + 2 * k →
          (startLoop k i st).mem.heap a = ⟨1, []⟩) := by
  induction k generalizing i st with
  | zero =>
    refine ⟨rfl, fun a _ => rfl, fun a h1 h2 => ?_⟩
    omega
  | succ k ih =>
    obtain ⟨h1, h2, h3⟩ := ih (i + 1) (startBody i st)
    rw [startBody_next] at h1 h2 h3
    simp only [startLoop]
    refine ⟨by omega, fun a ha => ?_, fun a ha hb => ?_⟩
    · rw [h2 a (by omega), startBody_heap, if_neg (by omega), if_neg (by omega)]
    · by_cases hc : a < st.mem.next + 2
      · rw [h2 a hc, startBody_heap]
        by_cases hd : a = st.mem.next + 1
        · rw [if_pos hd]
        · rw [if_neg hd, if_pos (by omega)]
      · exact h3 a (by omega) (by omega)

theorem startLoop_lists (k i : Nat) (st : StartState) (base : Nat)
    (hn : st.mem.next = base + 2 * i)
    (hs : st.g.signalChannels
      = (List.range i).map (fun j => some (base + 2 * j)) ++ List.replicate k none)
    (hq : st.g.quitChannels
      = (List.range i).map (fun j => some (base + 2 * j + 1)) ++ List.replicate k none)
    (hp : st.spawned = (List.range i).map (fun j => ⟨base + 2 * j, base + 2 * j + 1, j⟩)) :
    (startLoop k i st).g.signalChannels
        = (List.range (i + k)).map (fun j => some (base + 2 * j))
      ∧ (startLoop k i st).g.quitChannels
        = (List.range (i + k)).map (fun j => some (base + 2 * j + 1))
      ∧ (startLoop k i st).spawned
        = (List.range (i + k)).map (fun j => ⟨base + 2 * j, base + 2 * j + 1, j⟩)
      ∧ (startLoop k i st).g.started = st.g.started := by
  induction k generalizing i st with
  | zero => simp_all [startLoop]
  | succ k ih =>
    simp only [startLoop]
    have hlen1 : ((List.range i).map (fun j => some (base + 2 * j))).length = i := by simp
    have hlen2 : ((List.range i).map (fun j => some (base + 2 * j + 1))).length = i := by simp
    have := ih (i + 1) (startBody i st) (by rw [startBody_next]; omega)
      (by
        have h := set_length_append ((List.range i).map (fun j => some (base + 2 * j))) none
          (some (base + 2 * i)) (List.replicate k none)
        rw [hlen1] at h
        simp only [startBody, hs, List.replicate_succ, h, hn]
        simp [List.range_succ])
      (by
        have h := set_length_append ((List.range i).map (fun j => some (base + 2 * j + 1))) none
          (some (base + 2 * i + 1)) (List.replicate k none)
        rw [hlen2] at h
        simp only [startBody, hq, List.replicate_succ, h, hn, Mem.make]
        simp [List.range_succ])
      (by simp [startBody, hp, hn, Mem.make, List.range_succ])
    obtain ⟨h1, h2, h3, h4⟩ := this
    have e : i + 1 + k = i + (k + 1) := by omega
    rw [e] at h1 h2 h3
    exact ⟨h1, h2, h3, by rw [h4]; simp [startBody]⟩

/-- What `Start` gives on a stopped module with the crawler enabled and
`n` workers configured. -/
theorem Start_enabled (n : Nat) (dbg : Bool) (tc : TaskConfig) (sig quit : List (Option Nat))
    (mem : Mem) :
    ∃ st, Start ⟨dbg, ⟨(n : Int), ⟨true⟩, tc⟩⟩ ⟨false, sig, quit⟩ mem = some st
      ∧ st.g.started = true
      ∧ st.g.signalChannels = (List.range n).map (fun j => some (mem.next + 2 * j))
      ∧ st.g.quitChannels = (List.range n).map (fun j => some (mem.next + 2 * j + 1))
      ∧ st.spawned = (List.range n).map (fun j => ⟨mem.next + 2 * j, mem.next + 2 * j + 1, j⟩)
      ∧ st.mem.next = mem.next + 2 * n
      ∧ (∀ a, a < mem.next → st.mem.heap a = mem.heap a)
      ∧ (∀ a, mem.next ≤ a → a < mem.next + 2 * n → st.mem.heap a = ⟨1, []⟩) := by
  have hl := startLoop_lists n 0
    ⟨⟨false, List.replicate n none, List.replicate n none⟩, mem, [], []⟩ mem.next
    (by simp) (by simp) (by simp) (by simp)
  have hh := startLoop_heap n 0
    ⟨⟨false, List.replicate n none, List.replicate n none⟩, mem, [], []⟩
  simp only [Nat.zero_add] at hl
  refine ⟨{ startLoop n 0
              ⟨⟨false, List.replicate n none, List.replicate n none⟩, mem, [], []⟩ with
            g := { (startLoop n 0
              ⟨⟨false, List.replicate n none, List.replicate n none⟩, mem, [], []⟩).g with
                started := true } },
    by simp [Start], rfl, hl.1, hl.2.1, hl.2.2.1, hh.1, hh.2.1, hh.2.2⟩

/-- Claim C3. On a stopped module and a worker count `n ≥ 0`, `Start` returns,
with `started` equal to the enabled flag. Enabled, it spawns exactly `n`
workers, with the shards `0, …, n-1` in order; `signalChannels` and
`quitChannels` have length `n` and hold at index `i` the two channels handed to
worker `i`, none nil; these `2n` channels are distinct, newly allocated, of
capacity 1 and empty. Disabled, it spawns no worker and allocates nothing. -/
theorem start_spawns_workers (n : Nat) (dbg enabled : Bool) (tc : TaskConfig)
    (sig quit : List (Option Nat)) (mem : Mem) :
    ∃ st, Start ⟨dbg, ⟨(n : Int), ⟨enabled⟩, tc⟩⟩ ⟨false, sig, quit⟩ mem = some st
      ∧ st.g.started = enabled
      ∧ st.spawned.length = (if enabled = true then n else 0)
      ∧ (if enabled = true then
          st.spawned.map Spawn.shard = List.range n
          ∧ st.g.signalChannels = st.spawned.map (fun sp => some sp.signalC)
          ∧ st.g.quitChannels = st.spawned.map (fun sp => some sp.quitC)
          ∧ st.g.signalChannels.length = n ∧ st.g.quitChannels.length = n
          ∧ (st.spawned.map Spawn.signalC ++ st.spawned.map Spawn.quitC).Nodup
          ∧ ∀ sp ∈ st.spawned,
              mem.next ≤ sp.signalC ∧ mem.next ≤ sp.quitC
              ∧ st.mem.heap sp.signalC = ⟨1, []⟩ ∧ st.mem.heap sp.quitC = ⟨1, []⟩
         else st.spawned = [] ∧ st.mem.next = mem.next) := by
  cases enabled with
  | false =>
    exact ⟨⟨⟨false, List.replicate n none, List.replicate n none⟩, mem, [],
      [(Level.info, [LogArg.str "crawler currently not enabled"])]⟩, by simp [Start], by simp⟩
  | true =>
    obtain ⟨st, h0, h1, h2, h3, h4, h5, h6, h7⟩ := Start_enabled n dbg tc sig quit mem
    refine ⟨st, h0, h1, by simp [h4], ?_⟩
    rw [if_pos rfl]
    refine ⟨by simp [h4, Function.comp_def], by simp [h2, h4], by simp [h3, h4], by simp [h2],
      by simp [h3], ?_, ?_⟩
    · rw [h4]
      simp only [List.map_map]
      rw [List.nodup_append]
      refine ⟨?_, ?_, ?_⟩
      · exact (List.nodup_range n).map (fun a b h => by simp at h; omega)
      · exact (List.nodup_range n).map (fun a b h => by simp at h; omega)
      · intro a ha hb
        simp at ha hb
        obtain ⟨x, _, hx⟩ := ha
        obtain ⟨y, _, hy⟩ := hb
        omega
    · intro sp hsp
      rw [h4] at hsp
      simp at hsp
      obtain ⟨j, hj, rfl⟩ := hsp
      exact ⟨by simp, by simp; omega, h7 _ (by simp) (by simp; omega),
        h7 _ (by simp; omega) (by simp; omega)⟩

/-! ## The invariant is kept by every step -/

theorem Mem.send_some {m m1 : Mem} {c : Nat} {v : Bool} (h : m.send c v = some m1) :
    m1.next = m.next ∧ ∀ a, a ≠ c → m1.heap a = m.heap a := by
  unfold Mem.send at h
  split at h
  · simp only [Option.some.injEq] at h
    subst h
    exact ⟨rfl, fun a ha => by simp [ha]⟩
  · simp at h

theorem Mem.recv_some {m m1 : Mem} {c : Nat} (h : m.recv c = some m1) :
    m1.next = m.next ∧ (m.heap c).buf ≠ [] ∧ ∀ a, a ≠ c → m1.heap a = m.heap a := by
  unfold Mem.recv at h
  split at h
  · simp at h
  · rename_i x rest hb
    simp only [Option.some.injEq] at h
    subst h
    exact ⟨rfl, by simp [hb], fun a ha => by simp [ha]⟩

theorem stepOuter_frame {sigP : Nat → Prop} {top : Nat} {w w1 : Worker} {m m1 : Mem}
    (hlt : ∀ a, sigP a → a < top) (h : stepOuter w m = some (w1, m1))
    (hn : top ≤ m.next) (hq : ¬ sigP w.quitC) (hl : ∀ q, w.quit = some q → top ≤ q) :
    top ≤ m1.next ∧ ¬ sigP w1.quitC ∧ (∀ q, w1.quit = some q → top ≤ q)
      ∧ ∀ a, sigP a → (m.heap a).buf = [] → m1.heap a = m.heap a := by
  unfold stepOuter at h
  split at h
  · -- makeQuit
    simp only [Option.some.injEq, Prod.mk.injEq] at h
    obtain ⟨rfl, rfl⟩ := h
    refine ⟨by simp [Mem.make]; omega, hq, ?_, ?_⟩
    · intro q hq2
      simp at hq2
      omega
    · intro a ha _
      have := hlt a ha
      simp [Mem.make]
      intro h; omega
  · -- goInner
    simp only [Option.some.injEq, Prod.mk.injEq] at h
    obtain ⟨rfl, rfl⟩ := h
    exact ⟨hn, hq, hl, fun _ _ _ => rfl⟩
  · -- recvSignal
    cases hr : m.recv w.signalC with
    | none => simp [hr] at h
    | some m2 =>
      simp only [hr, Option.map_some', Option.some.injEq, Prod.mk.injEq] at h
      obtain ⟨rfl, rfl⟩ := h
      obtain ⟨h1, h2, h3⟩ := Mem.recv_some hr
      refine ⟨by omega, hq, hl, fun a _ hb => h3 a ?_⟩
      intro e; subst e; exact h2 hb
  · -- sendQuit
    split at h
    · rename_i q hqq
      cases hr : m.send q true with
      | none => simp [hr] at h
      | some m2 =>
        simp only [hr, Option.map_some', Option.some.injEq, Prod.mk.injEq] at h
        obtain ⟨rfl, rfl⟩ := h
        obtain ⟨h1, h3⟩ := Mem.send_some hr
        refine ⟨by omega, hq, hl, fun a ha _ => h3 a ?_⟩
        have := hlt a ha
        have := hl q hqq
        omega
    · simp at h
  · -- wgWait
    split at h
    · simp only [Option.some.injEq, Prod.mk.injEq] at h
      obtain ⟨rfl, rfl⟩ := h
      exact ⟨hn, hq, hl, fun _ _ _ => rfl⟩
    · simp at h
  · -- sendAck
    cases hr : m.send w.quitC true with
    | none => simp [hr] at h
    | some m2 =>
      simp only [hr, Option.map_some', Option.some.injEq, Prod.mk.injEq] at h
      obtain ⟨rfl, rfl⟩ := h
      obtain ⟨h1, h3⟩ := Mem.send_some hr
      refine ⟨by omega, hq, hl, fun a ha _ => h3 a ?_⟩
      intro e; subst e; exact hq ha
  · simp at h

theorem stepInner_frame {sigP : Nat → Prop} {top : Nat} {oracle : String → PipelineRun}
    {env : Env} {started : Bool} {w : Worker} {m : Mem} {queue : List String} {r : InnerStep}
    (hlt : ∀ a, sigP a → a < top) (h : stepInner oracle env started w m queue = some r)
    (hn : top ≤ m.next) (hq : ¬ sigP w.quitC) (hl : ∀ q, w.quit = some q → top ≤ q) :
    top ≤ r.mem.next ∧ ¬ sigP r.w.quitC ∧ (∀ q, r.w.quit = some q → top ≤ q)
      ∧ ∀ a, sigP a → r.mem.heap a = m.heap a := by
  unfold stepInner at h
  split at h
  · simp at h
  · split at h
    · rename_i q hqq
      split at h
      · rename_i m2 hr
        simp only [Option.some.injEq] at h
        subst h
        obtain ⟨h1, _, h3⟩ := Mem.recv_some hr
        refine ⟨by simp; omega, hq, hl, fun a ha => h3 a ?_⟩
        have := hlt a ha
        have := hl q hqq
        omega
      · simp only [Option.some.injEq] at h
        subst h
        exact ⟨hn, hq, hl, fun _ _ => rfl⟩
    · simp at h
  · split at h <;> simp only [Option.some.injEq] at h <;> subst h <;>
      exact ⟨hn, hq, hl, fun _ _ => rfl⟩
  · split at h
    · simp at h
    · simp only [Option.some.injEq] at h
      subst h
      exact ⟨hn, hq, hl, fun _ _ => rfl⟩
  all_goals
    cases h
    try exact ⟨hn, hq, hl, fun _ _ => rfl⟩

theorem sendTargets_append (l₁ l₂ : List Act) :
    sendTargets (l₁ ++ l₂) = sendTargets l₁ ++ sendTargets l₂ := by
  induction l₁ with
  | nil => rfl
  | cons a l ih => cases a <;> simp [sendTargets, ih]

theorem pending_sig {g0 : Globals} {sigP : Nat → Prop} {top : Nat} {s : State}
    (hk : ScriptOk g0 sigP top) (hi : Inv g0 sigP top s) : ∀ a ∈ pending g0 s, sigP a := by
  intro a ha
  unfold pending at ha
  cases hm : s.main with
  | none => rw [hm] at ha; exact hk.send_sig a ha
  | some rest =>
    rw [hm] at ha
    apply hk.send_sig
    rw [← (hi.inStop rest hm).1, sendTargets_append]
    exact List.mem_append_right _ ha

theorem script_head {g0 : Globals} {sigP : Nat → Prop} {top : Nat} (hk : ScriptOk g0 sigP top)
    {x : Act} {rest : List Act} (h : x :: rest = (Stop g0).script) : x = Act.setStarted false := by
  have hs := hk.started
  simp only [Stop, hs, if_true, List.cons_append] at h
  exact (List.cons.inj h).1

/-- The part of the invariant about `started` after one more action of `Stop`. -/
theorem started_after {g0 : Globals} {sigP : Nat → Prop} {top : Nat} (hk : ScriptOk g0 sigP top)
    {s : State} {x : Act} {rest : List Act}
    (hs : s.performed ++ x :: rest = (Stop g0).script)
    (h1 : s.performed ≠ [] → s.g.started = false) :
    (Act.onGlobals s.g x).started = false := by
  by_cases hp : s.performed = []
  · rw [hp] at hs
    have := script_head hk hs
    subst this
    rfl
  · have hmem : x ∈ (Stop g0).script := by rw [← hs]; simp
    cases x with
    | setStarted b =>
      have := hk.set_false b hmem
      subst this
      rfl
    | _ => exact h1 hp

theorem stepStop_inv {g0 : Globals} {sigP : Nat → Prop} {top : Nat} {s s1 : State}
    {x : Act} {rest : List Act} (hk : ScriptOk g0 sigP top) (hi : Inv g0 sigP top s)
    (hm : s.main = some (x :: rest)) (h : stepStop x rest s = some s1) :
    Inv g0 sigP top s1 := by
  obtain ⟨hs, -, hne⟩ := hi.inStop _ hm
  have hst := started_after hk hs hne
  have hpend := hi.pend_empty
  have hsig := pending_sig hk hi
  simp only [pending, hm] at hpend hsig
  have hnd : (sendTargets (x :: rest)).Nodup := by
    have := hk.nodup
    rw [← hs, sendTargets_append] at this
    exact this.of_append_right
  have hmem : x ∈ (Stop g0).script := by rw [← hs]; simp
  cases x with
  | setStarted b =>
    simp only [stepStop, Option.some.injEq] at h
    subst h
    exact ⟨hi.next_ge, hi.workers_ok, hi.sig_eq, hi.quit_eq, by simp,
      fun r hr => by
        simp only [Option.some.injEq] at hr
        subst hr
        exact ⟨by simpa using hs, by simp, fun _ => hst⟩,
      fun a ha => hpend a (by simpa [pending, sendTargets] using ha)⟩
  | log l args =>
    simp only [stepStop, Option.some.injEq] at h
    subst h
    exact ⟨hi.next_ge, hi.workers_ok, hi.sig_eq, hi.quit_eq, by simp,
      fun r hr => by
        simp only [Option.some.injEq] at hr
        subst hr
        exact ⟨by simpa using hs, by simp, fun _ => hst⟩,
      fun a ha => hpend a (by simpa [pending, sendTargets] using ha)⟩
  | send c v =>
    cases hr : s.mem.send c v with
    | none => simp [stepStop, hr] at h
    | some m1 =>
      simp only [stepStop, hr, Option.map_some', Option.some.injEq] at h
      subst h
      obtain ⟨e1, e2⟩ := Mem.send_some hr
      simp only [sendTargets, List.nodup_cons] at hnd
      refine ⟨by simpa [e1] using hi.next_ge, hi.workers_ok, hi.sig_eq, hi.quit_eq, by simp,
        fun r hr => by
          simp only [Option.some.injEq] at hr
          subst hr
          exact ⟨by simpa using hs, by simp, fun _ => hst⟩,
        fun a ha => ?_⟩
      simp only [pending] at ha
      have hac : a ≠ c := fun e => hnd.1 (e ▸ ha)
      simp only
      rw [e2 a hac]
      exact hpend a (by simp [sendTargets, ha])
  | recv c =>
    cases hr : s.mem.recv c with
    | none => simp [stepStop, hr] at h
    | some m1 =>
      simp only [stepStop, hr, Option.map_some', Option.some.injEq] at h
      subst h
      obtain ⟨e1, -, e2⟩ := Mem.recv_some hr
      refine ⟨by simpa [e1] using hi.next_ge, hi.workers_ok, hi.sig_eq, hi.quit_eq, by simp,
        fun r hr => by
          simp only [Option.some.injEq] at hr
          subst hr
          exact ⟨by simpa using hs, by simp, fun _ => hst⟩,
        fun a ha => ?_⟩
      simp only [pending] at ha
      have ha2 : a ∈ sendTargets (Act.recv c :: rest) := by simpa [sendTargets] using ha
      have hac : a ≠ c := fun e => hk.recv_not c hmem (e ▸ hsig a ha2)
      simp only
      rw [e2 a hac]
      exact hpend a ha2
  | wgAdd n => simp [stepStop] at h
  | wgDone => simp [stepStop] at h
  | run p => simp [stepStop] at h
  | sleep d => simp [stepStop] at h

theorem step_inv {g0 : Globals} {sigP : Nat → Prop} {top : Nat} {oracle : String → PipelineRun}
    {env : Env} {a : Action} {s s1 : State} (hk : ScriptOk g0 sigP top)
    (hi : Inv g0 sigP top s) (h : step oracle env a s = some s1) : Inv g0 sigP top s1 := by
  unfold step at h
  split at h
  · simp at h
  · cases a with
    | callStop =>
      simp only at h
      cases hm : s.main with
      | some r => simp [hm] at h
      | none =>
        simp only [hm, Option.some.injEq] at h
        subst h
        obtain ⟨hst, hp⟩ := hi.idle hm
        have hg : s.g = g0 := by
          have h1 := hi.sig_eq
          have h2 := hi.quit_eq
          have h3 := hk.started
          cases hsg : s.g
          cases g0
          simp_all
        refine ⟨hi.next_ge, hi.workers_ok, hi.sig_eq, hi.quit_eq, by simp, fun r hr => ?_,
          fun a ha => hi.pend_empty a ?_⟩
        · simp only [Option.some.injEq] at hr
          subst hr
          simp [hp, hg, hk.started]
        · simpa [pending, hm, hg] using ha
    | stop =>
      simp only at h
      split at h
      · rename_i x rest hm
        exact stepStop_inv hk hi hm h
      · simp at h
    | outer i =>
      simp only at h
      split at h
      · rename_i w hw
        cases hr : stepOuter w s.mem with
        | none => simp [hr] at h
        | some r =>
          obtain ⟨w1, m1⟩ := r
          simp only [hr, Option.map_some', Option.some.injEq] at h
          subst h
          have hwm := List.getElem?_mem hw
          obtain ⟨f1, f2, f3, f4⟩ := stepOuter_frame hk.sig_lt hr hi.next_ge
            (hi.workers_ok w hwm).1 (hi.workers_ok w hwm).2
          refine ⟨f1, fun w2 hw2 => ?_, hi.sig_eq, hi.quit_eq, hi.idle, hi.inStop,
            fun a ha => ?_⟩
          · rcases List.mem_or_eq_of_mem_set hw2 with h | h
            · exact hi.workers_ok w2 h
            · subst h; exact ⟨f2, f3⟩
          · have hp := hi.pend_empty a ha
            have : s.mem.heap a = m1.heap a := (f4 a (pending_sig hk hi a ha) (by rw [hp])).symm
            simp only
            rw [← this]
            exact hp
      · simp at h
    | inner i =>
      simp only at h
      split at h
      · rename_i w hw
        cases hr : stepInner oracle env s.g.started w s.mem s.queue with
        | none => simp [hr] at h
        | some r =>
          simp only [hr, Option.map_some', Option.some.injEq] at h
          subst h
          have hwm := List.getElem?_mem hw
          obtain ⟨f1, f2, f3, f4⟩ := stepInner_frame hk.sig_lt hr hi.next_ge
            (hi.workers_ok w hwm).1 (hi.workers_ok w hwm).2
          refine ⟨f1, fun w2 hw2 => ?_, hi.sig_eq, hi.quit_eq, hi.idle, hi.inStop,
            fun a ha => ?_⟩
          · rcases List.mem_or_eq_of_mem_set hw2 with h | h
            · exact hi.workers_ok w2 h
            · subst h; exact ⟨f2, f3⟩
          · have hp := hi.pend_empty a ha
            simp only
            rw [f4 a (pending_sig hk hi a ha)]
            exact hp
      · simp at h
    | push t =>
      simp only [Option.some.injEq] at h
      subst h
      exact ⟨hi.next_ge, hi.workers_ok, hi.sig_eq, hi.quit_eq, hi.idle, hi.inStop,
        hi.pend_empty⟩

theorem runSchedule_inv {g0 : Globals} {sigP : Nat → Prop} {top : Nat}
    {oracle : String → PipelineRun} {env : Env} (hk : ScriptOk g0 sigP top)
    (sched : List Action) {s s1 : State} (hi : Inv g0 sigP top s)
    (h : runSchedule oracle env sched s = some s1) : Inv g0 sigP top s1 := by
  induction sched generalizing s with
  | nil =>
    simp only [runSchedule, Option.some.injEq] at h
    subst h
    exact hi
  | cons a rest ih =>
    simp only [runSchedule] at h
    cases hs : step oracle env a s with
    | none => simp [hs] at h
    | some s2 =>
      rw [hs] at h
      exact ih (step_inv hk hi hs) h

theorem sendTargets_stopSends (i : Nat) (l : List (Option Nat)) :
    sendTargets (stopSends i l) = l.filterMap id := by
  induction l generalizing i with
  | nil => rfl
  | cons x l ih => cases x <;> simp [stopSends, sendTargets, ih]

theorem sendTargets_stopRecvs (i : Nat) (l : List (Option Nat)) :
    sendTargets (stopRecvs i l) = [] := by
  induction l generalizing i with
  | nil => rfl
  | cons x l ih => cases x <;> simp [stopRecvs, sendTargets, ih]

theorem mailbox_stopSends (i : Nat) (l : List (Option Nat)) :
    (stopSends i l).filter Act.isMailbox = (l.filterMap id).map (fun c => Act.send c true) := by
  induction l generalizing i with
  | nil => rfl
  | cons x l ih => cases x <;> simp [stopSends, Act.isMailbox, List.filter_cons, ih]

theorem mailbox_stopRecvs (i : Nat) (l : List (Option Nat)) :
    (stopRecvs i l).filter Act.isMailbox = (l.filterMap id).map Act.recv := by
  induction l generalizing i with
  | nil => rfl
  | cons x l ih => cases x <;> simp [stopRecvs, Act.isMailbox, List.filter_cons, ih]

theorem recv_mem_stopSends (i : Nat) (l : List (Option Nat)) (c : Nat) :
    Act.recv c ∉ stopSends i l := by
  induction l generalizing i with
  | nil => simp [stopSends]
  | cons x l ih => cases x <;> simp [stopSends, ih]

theorem recv_mem_stopRecvs (i : Nat) (l : List (Option Nat)) (c : Nat)
    (h : Act.recv c ∈ stopRecvs i l) : some c ∈ l := by
  induction l generalizing i with
  | nil => simp [stopRecvs] at h
  | cons x l ih =>
    cases x with
    | none =>
      simp only [stopRecvs, List.append_nil, List.cons_append, List.nil_append,
        List.mem_cons] at h
      rcases h with h | h
      · cases h
      · exact List.mem_cons_of_mem _ (ih _ h)
    | some d =>
      simp only [stopRecvs, List.cons_append, List.nil_append, List.mem_cons] at h
      rcases h with h | h | h
      · cases h
      · cases h; exact List.mem_cons_self _ _
      · exact List.mem_cons_of_mem _ (ih _ h)

theorem set_mem_stopSends (i : Nat) (l : List (Option Nat)) (b : Bool) :
    Act.setStarted b ∉ stopSends i l := by
  induction l generalizing i with
  | nil => simp [stopSends]
  | cons x l ih => cases x <;> simp [stopSends, ih]

theorem set_mem_stopRecvs (i : Nat) (l : List (Option Nat)) (b : Bool) :
    Act.setStarted b ∉ stopRecvs i l := by
  induction l generalizing i with
  | nil => simp [stopRecvs]
  | cons x l ih => cases x <;> simp [stopRecvs, ih]

theorem filterMap_id_map_some (f : Nat → Nat) (l : List Nat) :
    (l.map (fun j => some (f j))).filterMap id = l.map f := by
  induction l with
  | nil => rfl
  | cons x l ih => simp [ih]

/-- The facts about the actions of `Stop` hold for the package variables that
`Start` leaves with `n` workers, the channels allocated from `base` on. -/
theorem scriptOk_of_start (base n : Nat) :
    ScriptOk ⟨true, (List.range n).map (fun j => some (base + 2 * j)),
        (List.range n).map (fun j => some (base + 2 * j + 1))⟩
      (fun a => ∃ j, j < n ∧ a = base + 2 * j) (base + 2 * n) := by
  have hT : sendTargets (Stop ⟨true, (List.range n).map (fun j => some (base + 2 * j)),
      (List.range n).map (fun j => some (base + 2 * j + 1))⟩).script
      = (List.range n).map (fun j => base + 2 * j) := by
    have hS : (Stop ⟨true, (List.range n).map (fun j => some (base + 2 * j)),
        (List.range n).map (fun j => some (base + 2 * j + 1))⟩).script
        = Act.setStarted false
          :: Act.log Level.debug [LogArg.str "start shutting down crawler"]
          :: (stopSends 0 ((List.range n).map (fun j => some (base + 2 * j)))
              ++ stopRecvs 0 ((List.range n).map (fun j => some (base + 2 * j + 1)))) := by
      simp [Stop]
    rw [hS]
    simp only [sendTargets, sendTargets_append, sendTargets_stopSends, sendTargets_stopRecvs,
      List.append_nil]
    exact filterMap_id_map_some _ _
  refine ⟨rfl, ?_, ?_, ?_, ?_, ?_⟩
  · rw [hT]
    exact (List.nodup_range n).map (fun a b h => by simp at h; omega)
  · rw [hT]
    intro a ha
    simp only [List.mem_map, List.mem_range] at ha
    obtain ⟨j, hj, rfl⟩ := ha
    exact ⟨j, hj, rfl⟩
  · intro c hc hs
    simp only [Stop, if_true, List.cons_append, List.nil_append, List.mem_cons,
      List.mem_append] at hc
    rcases hc with hc | hc | hc | hc
    · cases hc
    · cases hc
    · exact recv_mem_stopSends _ _ _ hc
    · have := recv_mem_stopRecvs _ _ _ hc
      simp only [List.mem_map, List.mem_range, Option.some.injEq] at this
      obtain ⟨j, _, hj⟩ := this
      obtain ⟨k, _, hk⟩ := hs
      omega
  · intro b hb
    simp only [Stop, if_true, List.cons_append, List.nil_append, List.mem_cons,
      List.mem_append] at hb
    rcases hb with hb | hb | hb | hb
    · cases hb; rfl
    · cases hb
    · exact absurd hb (set_mem_stopSends _ _ _)
    · exact absurd hb (set_mem_stopRecvs _ _ _)
  · rintro a ⟨j, hj, rfl⟩
    omega

/-- The invariant holds when `Start` has just returned. -/
theorem inv_boot (n : Nat) (dbg : Bool) (tc : TaskConfig) (sig quit : List (Option Nat))
    (mem : Mem) (queue : List String) (st : StartState)
    (hst : Start ⟨dbg, ⟨(n : Int), ⟨true⟩, tc⟩⟩ ⟨false, sig, quit⟩ mem = some st) :
    st.g = ⟨true, (List.range n).map (fun j => some (mem.next + 2 * j)),
        (List.range n).map (fun j => some (mem.next + 2 * j + 1))⟩
      ∧ Inv st.g (fun a => ∃ j, j < n ∧ a = mem.next + 2 * j) (mem.next + 2 * n)
          (boot st queue) := by
  obtain ⟨st1, h0, h1, h2, h3, h4, h5, h6, h7⟩ := Start_enabled n dbg tc sig quit mem
  rw [hst] at h0
  cases h0
  have hg : st.g = ⟨true, (List.range n).map (fun j => some (mem.next + 2 * j)),
      (List.range n).map (fun j => some (mem.next + 2 * j + 1))⟩ := by
    cases hgg : st.g
    simp_all
  have hk := scriptOk_of_start mem.next n
  rw [← hg] at hk
  refine ⟨hg, ⟨by simp [boot, h5], ?_, rfl, rfl, fun _ => ⟨h1, rfl⟩, ?_, ?_⟩⟩
  · intro w hw
    simp only [boot, h4, List.map_map, List.mem_map, List.mem_range, Function.comp] at hw
    obtain ⟨j, hj, rfl⟩ := hw
    refine ⟨?_, by simp [Spawn.worker]⟩
    rintro ⟨k, _, hk2⟩
    simp only [Spawn.worker] at hk2
    omega
  · intro rest hr
    simp [boot] at hr
  · intro a ha
    have hs := hk.send_sig a (by simpa [pending, boot] using ha)
    obtain ⟨j, hj, rfl⟩ := hs
    exact h7 _ (by omega) (by omega)

/-! ## The handshake invariant is kept by every step -/

theorem Mem.send_at {m m1 : Mem} {c : Nat} {v : Bool} (h : m.send c v = some m1) :
    m1.heap c = ⟨(m.heap c).cap, (m.heap c).buf ++ [v]⟩ := by
  unfold Mem.send at h
  split at h
  · simp only [Option.some.injEq] at h
    subst h
    simp
  · simp at h

theorem Mem.recv_at {m m1 : Mem} {c : Nat} (h : m.recv c = some m1) :
    ∃ x, (m.heap c).buf = x :: (m1.heap c).buf ∧ (m1.heap c).cap = (m.heap c).cap := by
  unfold Mem.recv at h
  split at h
  · simp at h
  · rename_i x rest hb
    simp only [Option.some.injEq] at h
    subst h
    exact ⟨x, by simp [hb], by simp⟩

theorem stepOuter_hand (top : Nat) {w w1 : Worker} {m m1 : Mem}
    (h : stepOuter w m = some (w1, m1)) (hn : top ≤ m.next)
    (hl : ∀ q, w.quit = some q → top ≤ q) (hne : w.signalC ≠ w.quitC) (hqt : w.quitC < top)
    (hack : m.heap w.quitC = ⟨1, []⟩
      ∨ (m.heap w.quitC = ⟨1, [true]⟩ ∧ w.outer = OuterPc.finished)) :
    w1.signalC = w.signalC ∧ w1.quitC = w.quitC ∧ w.outer ≠ OuterPc.finished
      ∧ (∀ a, a < top → a ≠ w.signalC → a ≠ w.quitC → m1.heap a = m.heap a)
      ∧ (m1.heap w.quitC = ⟨1, []⟩
          ∨ (m1.heap w.quitC = ⟨1, [true]⟩ ∧ w1.outer = OuterPc.finished))
      ∧ (((m1.heap w.signalC).buf ≠ [] ∨ w1.outer.pastRecv = true) →
          ((m.heap w.signalC).buf ≠ [] ∨ w.outer.pastRecv = true)) := by
  have hfin : w.outer ≠ OuterPc.finished := by
    intro e
    simp [stepOuter, e] at h
  have hq0 : m.heap w.quitC = ⟨1, []⟩ := by
    rcases hack with h0 | ⟨_, h1⟩
    · exact h0
    · exact absurd h1 hfin
  unfold stepOuter at h
  split at h
  · -- makeQuit
    rename_i hpc
    simp only [Option.some.injEq, Prod.mk.injEq] at h
    obtain ⟨rfl, rfl⟩ := h
    refine ⟨rfl, rfl, hfin, fun a ha _ _ => ?_, ?_, ?_⟩
    · simp only [Mem.make]
      rw [if_neg (by omega)]
    · left
      by_cases e : w.quitC = m.next
      · simp [Mem.make, e]
      · simp only [Mem.make]
        rw [if_neg e]
        exact hq0
    · intro hc
      rcases hc with hc | hc
      · by_cases e : w.signalC = m.next
        · simp [Mem.make, e] at hc
        · simp only [Mem.make] at hc
          rw [if_neg e] at hc
          exact Or.inl hc
      · simp [OuterPc.pastRecv] at hc
  · -- goInner
    simp only [Option.some.injEq, Prod.mk.injEq] at h
    obtain ⟨rfl, rfl⟩ := h
    refine ⟨rfl, rfl, hfin, fun _ _ _ _ => rfl, Or.inl hq0, ?_⟩
    intro hc
    rcases hc with hc | hc
    · exact Or.inl hc
    · simp [OuterPc.pastRecv] at hc
  · -- recvSignal
    cases hr : m.recv w.signalC with
    | none => simp [hr] at h
    | some m2 =>
      simp only [hr, Option.map_some', Option.some.injEq, Prod.mk.injEq] at h
      obtain ⟨rfl, rfl⟩ := h
      obtain ⟨_, h2, h3⟩ := Mem.recv_some hr
      refine ⟨rfl, rfl, hfin, fun a _ ha _ => h3 a ha, Or.inl ?_, fun _ => Or.inl h2⟩
      show m2.heap w.quitC = _
      rw [h3 _ (Ne.symm hne)]
      exact hq0
  · -- sendQuit
    rename_i hpc
    split at h
    · rename_i q hqq
      cases hr : m.send q true with
      | none => simp [hr] at h
      | some m2 =>
        simp only [hr, Option.map_some', Option.some.injEq, Prod.mk.injEq] at h
        obtain ⟨rfl, rfl⟩ := h
        obtain ⟨_, h3⟩ := Mem.send_some hr
        have hq := hl q hqq
        refine ⟨rfl, rfl, hfin, fun a ha _ _ => h3 a (by omega), ?_,
          fun _ => Or.inr (by simp [hpc, OuterPc.pastRecv])⟩
        left
        show m2.heap w.quitC = _
        rw [h3 _ (by omega)]
        exact hq0
    · simp at h
  · -- wgWait
    rename_i hpc
    split at h
    · simp only [Option.some.injEq, Prod.mk.injEq] at h
      obtain ⟨rfl, rfl⟩ := h
      exact ⟨rfl, rfl, hfin, fun _ _ _ _ => rfl, Or.inl hq0,
        fun _ => Or.inr (by simp [hpc, OuterPc.pastRecv])⟩
    · simp at h
  · -- sendAck
    rename_i hpc
    cases hr : m.send w.quitC true with
    | none => simp [hr] at h
    | some m2 =>
      simp only [hr, Option.map_some', Option.some.injEq, Prod.mk.injEq] at h
      obtain ⟨rfl, rfl⟩ := h
      obtain ⟨_, h3⟩ := Mem.send_some hr
      refine ⟨rfl, rfl, hfin, fun a _ _ ha => h3 a ha, Or.inr ⟨?_, rfl⟩,
        fun _ => Or.inr (by simp [hpc, OuterPc.pastRecv])⟩
      show m2.heap w.quitC = _
      rw [Mem.send_at hr, hq0]
      rfl
  · simp at h

theorem stepInner_hand (top : Nat) {oracle : String → PipelineRun} {env : Env}
    {started : Bool} {w : Worker} {m : Mem} {queue : List String} {r : InnerStep}
    (h : stepInner oracle env started w m queue = some r)
    (hl : ∀ q, w.quit = some q → top ≤ q) :
    r.w.signalC = w.signalC ∧ r.w.quitC = w.quitC ∧ r.w.outer = w.outer
      ∧ ∀ a, a < top → r.mem.heap a = m.heap a := by
  unfold stepInner at h
  split at h
  · simp at h
  · split at h
    · rename_i q hqq
      split at h
      · rename_i m2 hr
        simp only [Option.some.injEq] at h
        subst h
        obtain ⟨_, _, h3⟩ := Mem.recv_some hr
        have := hl q hqq
        exact ⟨rfl, rfl, rfl, fun a ha => h3 a (by omega)⟩
      · simp only [Option.some.injEq] at h
        subst h
        exact ⟨rfl, rfl, rfl, fun _ _ => rfl⟩
    · simp at h
  · split at h <;> simp only [Option.some.injEq] at h <;> subst h <;>
      exact ⟨rfl, rfl, rfl, fun _ _ => rfl⟩
  · split at h
    · simp at h
    · simp only [Option.some.injEq] at h
      subst h
      exact ⟨rfl, rfl, rfl, fun _ _ => rfl⟩
  all_goals
    cases h
    try exact ⟨rfl, rfl, rfl, fun _ _ => rfl⟩

theorem getElem?_set_cases {α : Type} {l : List α} {i j : Nat} {a b : α}
    (h : (l.set i a)[j]? = some b) : (j = i ∧ b = a) ∨ (j ≠ i ∧ l[j]? = some b) := by
  rw [List.getElem?_set] at h
  split at h
  · rename_i e
    split at h
    · simp only [Option.some.injEq] at h
      exact Or.inl ⟨e.symm, h.symm⟩
    · simp at h
  · rename_i e
    exact Or.inr ⟨fun e2 => e e2.symm, h⟩

theorem index_lt {α : Type} {l : List α} {i : Nat} {a : α} (h : l[i]? = some a) :
    i < l.length := by
  obtain ⟨h1, _⟩ := List.getElem?_eq_some.1 h
  exact h1

/-- The handshake invariant goes over to a state whose workers kept their two
channels and the place of their control path, whose `Stop` has performed the
same actions, and whose channels below `base + 2n` are unchanged. -/
theorem hand_of_same {base n : Nat} {s s1 : State} (hh : Hand base n s)
    (hp : s1.performed = s.performed) (hlen : s1.workers.length = s.workers.length)
    (hw : ∀ (j : Nat) (w2 : Worker), s1.workers[j]? = some w2 →
      ∃ w, s.workers[j]? = some w ∧ w2.signalC = w.signalC ∧ w2.quitC = w.quitC
        ∧ w2.outer = w.outer)
    (hm : ∀ a, a < base + 2 * n → s1.mem.heap a = s.mem.heap a) : Hand base n s1 := by
  refine ⟨by rw [hlen, hh.len], fun j w2 h2 => ?_, fun j w2 h2 => ?_, fun j w2 h2 => ?_,
    fun j w2 h2 => ?_⟩
  all_goals
    obtain ⟨w, h1, e1, e2, e3⟩ := hw j w2 h2
    obtain ⟨a1, a2⟩ := hh.addr j w h1
    have hj : j < n := by have := index_lt h1; rw [hh.len] at this; exact this
  · rw [e1, e2]; exact ⟨a1, a2⟩
  · rw [e2, e3, hm _ (by omega)]; exact hh.ack j w h1
  · rw [e2, e3, hm _ (by omega), hp]; exact hh.taken j w h1
  · rw [e1, e3, hm _ (by omega), hp]; exact hh.req j w h1

theorem stepStop_hand {base n : Nat} {g0 : Globals} {s s1 : State} {x : Act}
    {rest : List Act}
    (hk : ScriptOk g0 (fun a => ∃ j, j < n ∧ a = base + 2 * j) (base + 2 * n))
    (hi : Inv g0 (fun a => ∃ j, j < n ∧ a = base + 2 * j) (base + 2 * n) s)
    (hh : Hand base n s) (hm : s.main = some (x :: rest))
    (h : stepStop x rest s = some s1) : Hand base n s1 := by
  obtain ⟨hs, -, -⟩ := hi.inStop _ hm
  have hmem : x ∈ (Stop g0).script := by rw [← hs]; simp
  have hsig := pending_sig hk hi
  simp only [pending, hm] at hsig
  cases x with
  | setStarted b =>
    simp only [stepStop, Option.some.injEq] at h
    subst h
    exact ⟨hh.len, hh.addr, hh.ack,
      fun i w hw hr => hh.taken i w hw (by simpa using hr),
      fun i w hw hc => by
        have := hh.req i w hw hc
        simp [sendTargets_append, sendTargets, this]⟩
  | log l args =>
    simp only [stepStop, Option.some.injEq] at h
    subst h
    exact ⟨hh.len, hh.addr, hh.ack,
      fun i w hw hr => hh.taken i w hw (by simpa using hr),
      fun i w hw hc => by
        have := hh.req i w hw hc
        simp [sendTargets_append, sendTargets, this]⟩
  | send c v =>
    cases hr : s.mem.send c v with
    | none => simp [stepStop, hr] at h
    | some m1 =>
      simp only [stepStop, hr, Option.map_some', Option.some.injEq] at h
      subst h
      obtain ⟨_, e2⟩ := Mem.send_some hr
      obtain ⟨k, hk1, hk2⟩ := hsig c (by simp [sendTargets])
      refine ⟨hh.len, hh.addr, fun i w hw => ?_, fun i w hw hrc => ?_, fun i w hw hc => ?_⟩
      · obtain ⟨a1, a2⟩ := hh.addr i w hw
        show m1.heap w.quitC = _ ∨ (m1.heap w.quitC = _ ∧ _)
        rw [e2 _ (by omega)]
        exact hh.ack i w hw
      · obtain ⟨a1, a2⟩ := hh.addr i w hw
        show _ ∧ m1.heap w.quitC = _
        rw [e2 _ (by omega)]
        exact hh.taken i w hw (by simpa using hrc)
      · show w.signalC ∈ sendTargets (s.performed ++ [Act.send c v])
        rw [sendTargets_append]
        by_cases e : w.signalC = c
        · simp [sendTargets, e]
        · have hc2 : (s.mem.heap w.signalC).buf ≠ [] ∨ w.outer.pastRecv = true := by
            rcases hc with hc | hc
            · left
              have : m1.heap w.signalC = s.mem.heap w.signalC := e2 _ e
              rw [← this]
              exact hc
            · exact Or.inr hc
          exact List.mem_append_left _ (hh.req i w hw hc2)
  | recv c =>
    cases hr : s.mem.recv c with
    | none => simp [stepStop, hr] at h
    | some m1 =>
      simp only [stepStop, hr, Option.map_some', Option.some.injEq] at h
      subst h
      obtain ⟨_, e1, e2⟩ := Mem.recv_some hr
      obtain ⟨y, e3, e4⟩ := Mem.recv_at hr
      have hns := hk.recv_not c hmem
      have key : ∀ (i : Nat) (w : Worker), s.workers[i]? = some w → w.quitC = c →
          w.outer = OuterPc.finished ∧ m1.heap w.quitC = ⟨1, []⟩ := by
        intro i w hw e
        rcases hh.ack i w hw with h0 | ⟨h0, h1⟩
        · rw [e] at h0
          rw [h0] at e1
          exact absurd rfl e1
        · refine ⟨h1, ?_⟩
          rw [e] at h0 ⊢
          rw [h0] at e3 e4
          simp only [List.cons.injEq] at e3
          cases hc : m1.heap c
          simp_all
      refine ⟨hh.len, hh.addr, fun i w hw => ?_, fun i w hw hrc => ?_, fun i w hw hc => ?_⟩
      · show m1.heap w.quitC = _ ∨ (m1.heap w.quitC = _ ∧ _)
        by_cases e : w.quitC = c
        · exact Or.inl (key i w hw e).2
        · rw [e2 _ e]
          exact hh.ack i w hw
      · show _ ∧ m1.heap w.quitC = _
        by_cases e : w.quitC = c
        · exact key i w hw e
        · rw [e2 _ e]
          refine hh.taken i w hw ?_
          simp only [List.mem_append, List.mem_singleton, Act.recv.injEq] at hrc
          rcases hrc with hrc | hrc
          · exact hrc
          · exact absurd hrc e
      · show w.signalC ∈ sendTargets (s.performed ++ [Act.recv c])
        rw [sendTargets_append]
        obtain ⟨a1, a2⟩ := hh.addr i w hw
        have hi_lt : i < n := by have := index_lt hw; rw [hh.len] at this; exact this
        have e : w.signalC ≠ c := fun e => hns ⟨i, hi_lt, by omega⟩
        have hc2 : (s.mem.heap w.signalC).buf ≠ [] ∨ w.outer.pastRecv = true := by
          rcases hc with hc | hc
          · left
            have : m1.heap w.signalC = s.mem.heap w.signalC := e2 _ e
            rw [← this]
            exact hc
          · exact Or.inr hc
        exact List.mem_append_left _ (hh.req i w hw hc2)
  | wgAdd k => simp [stepStop] at h
  | wgDone => simp [stepStop] at h
  | run p => simp [stepStop] at h
  | sleep d => simp [stepStop] at h

theorem step_hand {base n : Nat} {g0 : Globals} {oracle : String → PipelineRun} {env : Env}
    {a : Action} {s s1 : State}
    (hk : ScriptOk g0 (fun a => ∃ j, j < n ∧ a = base + 2 * j) (base + 2 * n))
    (hi : Inv g0 (fun a => ∃ j, j < n ∧ a = base + 2 * j) (base + 2 * n) s)
    (hh : Hand base n s) (h : step oracle env a s = some s1) : Hand base n s1 := by
  unfold step at h
  split at h
  · simp at h
  · cases a with
    | callStop =>
      simp only at h
      cases hm : s.main with
      | some r => simp [hm] at h
      | none =>
        simp only [hm, Option.some.injEq] at h
        subst h
        exact ⟨hh.len, hh.addr, hh.ack, hh.taken, hh.req⟩
    | stop =>
      simp only at h
      split at h
      · rename_i x rest hm
        exact stepStop_hand hk hi hh hm h
      · simp at h
    | push t =>
      simp only [Option.some.injEq] at h
      subst h
      exact ⟨hh.len, hh.addr, hh.ack, hh.taken, hh.req⟩
    | inner i =>
      simp only at h
      split at h
      · rename_i w hw
        cases hr : stepInner oracle env s.g.started w s.mem s.queue with
        | none => simp [hr] at h
        | some r =>
          simp only [hr, Option.map_some', Option.some.injEq] at h
          subst h
          obtain ⟨f1, f2, f3, f4⟩ := stepInner_hand (base + 2 * n) hr
            (hi.workers_ok w (List.getElem?_mem hw)).2
          refine hand_of_same hh rfl (by simp) (fun j w2 h2 => ?_) f4
          rcases getElem?_set_cases h2 with ⟨rfl, rfl⟩ | ⟨_, h3⟩
          · exact ⟨w, hw, f1, f2, f3⟩
          · exact ⟨w2, h3, rfl, rfl, rfl⟩
      · simp at h
    | outer i =>
      simp only at h
      split at h
      · rename_i w hw
        cases hr : stepOuter w s.mem with
        | none => simp [hr] at h
        | some r =>
          obtain ⟨w1, m1⟩ := r
          simp only [hr, Option.map_some', Option.some.injEq] at h
          subst h
          obtain ⟨a1, a2⟩ := hh.addr i w hw
          have hi_lt : i < n := by have := index_lt hw; rw [hh.len] at this; exact this
          obtain ⟨f1, f2, f3, f4, f5, f6⟩ := stepOuter_hand (base + 2 * n) hr
            hi.next_ge (hi.workers_ok w (List.getElem?_mem hw)).2 (by omega) (by omega)
            (hh.ack i w hw)
          have other : ∀ (j : Nat) (w2 : Worker), j ≠ i → s.workers[j]? = some w2 →
              m1.heap w2.signalC = s.mem.heap w2.signalC
                ∧ m1.heap w2.quitC = s.mem.heap w2.quitC := by
            intro j w2 hj h3
            obtain ⟨b1, b2⟩ := hh.addr j w2 h3
            have hj_lt : j < n := by have := index_lt h3; rw [hh.len] at this; exact this
            exact ⟨f4 _ (by omega) (by omega) (by omega), f4 _ (by omega) (by omega) (by omega)⟩
          refine ⟨by simp [hh.len], fun j w2 h2 => ?_, fun j w2 h2 => ?_,
            fun j w2 h2 hrc => ?_, fun j w2 h2 hc => ?_⟩
          · rcases getElem?_set_cases h2 with ⟨rfl, rfl⟩ | ⟨_, h3⟩
            · rw [f1, f2]; exact ⟨a1, a2⟩
            · exact hh.addr j w2 h3
          · show m1.heap w2.quitC = _ ∨ (m1.heap w2.quitC = _ ∧ _)
            rcases getElem?_set_cases h2 with ⟨rfl, rfl⟩ | ⟨hj, h3⟩
            · rw [f2]; exact f5
            · rw [(other j w2 hj h3).2]; exact hh.ack j w2 h3
          · show _ ∧ m1.heap w2.quitC = _
            rcases getElem?_set_cases h2 with ⟨rfl, rfl⟩ | ⟨hj, h3⟩
            · rw [f2] at hrc
              exact absurd (hh.taken _ w hw hrc).1 f3
            · rw [(other j w2 hj h3).2]; exact hh.taken j w2 h3 hrc
          · rcases getElem?_set_cases h2 with ⟨rfl, rfl⟩ | ⟨hj, h3⟩
            · rw [f1] at hc ⊢
              exact hh.req _ w hw (f6 hc)
            · have hc2 : (s.mem.heap w2.signalC).buf ≠ [] ∨ w2.outer.pastRecv = true := by
                rcases hc with hc | hc
                · left
                  rw [← (other j w2 hj h3).1]
                  exact hc
                · exact Or.inr hc
              exact hh.req j w2 h3 hc2
      · simp at h

theorem runSchedule_hand {base n : Nat} {g0 : Globals} {oracle : String → PipelineRun}
    {env : Env}
    (hk : ScriptOk g0 (fun a => ∃ j, j < n ∧ a = base + 2 * j) (base + 2 * n))
    (sched : List Action) {s s1 : State}
    (hi : Inv g0 (fun a => ∃ j, j < n ∧ a = base + 2 * j) (base + 2 * n) s)
    (hh : Hand base n s) (h : runSchedule oracle env sched s = some s1) : Hand base n s1 := by
  induction sched generalizing s with
  | nil =>
    simp only [runSchedule, Option.some.injEq] at h
    subst h
    exact hh
  | cons a rest ih =>
    simp only [runSchedule] at h
    cases hs : step oracle env a s with
    | none => simp [hs] at h
    | some s2 =>
      rw [hs] at h
      exact ih (step_inv hk hi hs) (step_hand hk hi hh hs) h

theorem send_mem_stopSends (i : Nat) (l : List (Option Nat)) (c : Nat) (v : Bool)
    (h : Act.send c v ∈ stopSends i l) : v = true := by
  induction l generalizing i with
  | nil => simp [stopSends] at h
  | cons x l ih =>
    cases x with
    | none =>
      simp only [stopSends, List.nil_append, List.cons_append, List.mem_cons] at h
      rcases h with h | h
      · cases h
      · exact ih _ h
    | some d =>
      simp only [stopSends, List.cons_append, List.nil_append, List.mem_cons] at h
      rcases h with h | h | h
      · cases h; rfl
      · cases h
      · exact ih _ h

theorem send_mem_stopRecvs (i : Nat) (l : List (Option Nat)) (c : Nat) (v : Bool) :
    Act.send c v ∉ stopRecvs i l := by
  induction l generalizing i with
  | nil => simp [stopRecvs]
  | cons x l ih => cases x <;> simp [stopRecvs, ih]

theorem send_mem_script (g : Globals) (c : Nat) (v : Bool)
    (h : Act.send c v ∈ (Stop g).script) : v = true := by
  unfold Stop at h
  split at h
  · simp only [List.cons_append, List.nil_append, List.mem_cons, List.mem_append] at h
    rcases h with h | h | h | h
    · cases h
    · cases h
    · exact send_mem_stopSends _ _ _ _ h
    · exact absurd h (send_mem_stopRecvs _ _ _ _)
  · simp at h

theorem recv_mem_script (g : Globals) (c : Nat) (h : Act.recv c ∈ (Stop g).script) :
    some c ∈ g.quitChannels := by
  unfold Stop at h
  split at h
  · simp only [List.cons_append, List.nil_append, List.mem_cons, List.mem_append] at h
    rcases h with h | h | h | h
    · cases h
    · cases h
    · exact absurd h (recv_mem_stopSends _ _ _)
    · exact recv_mem_stopRecvs _ _ _ h
  · simp at h

theorem script_has_recv (g : Globals) (hg : g.started = true) (c : Nat)
    (h : some c ∈ g.quitChannels) : Act.recv c ∈ (Stop g).script := by
  have h1 : Act.recv c ∈ (stopRecvs 0 g.quitChannels).filter Act.isMailbox := by
    rw [mailbox_stopRecvs]
    simp only [List.mem_map, List.mem_filterMap, id]
    exact ⟨c, ⟨_, h, rfl⟩, rfl⟩
  have h2 := (List.mem_filter.1 h1).1
  simp [Stop, hg, h2]

/-- The handshake invariant holds when `Start` has just returned. -/
theorem hand_boot (n : Nat) (dbg : Bool) (tc : TaskConfig) (sig quit : List (Option Nat))
    (mem : Mem) (queue : List String) (st : StartState)
    (hst : Start ⟨dbg, ⟨(n : Int), ⟨true⟩, tc⟩⟩ ⟨false, sig, quit⟩ mem = some st) :
    Hand mem.next n (boot st queue) := by
  obtain ⟨st1, h0, h1, h2, h3, h4, h5, h6, h7⟩ := Start_enabled n dbg tc sig quit mem
  rw [hst] at h0
  cases h0
  have hw : ∀ (i : Nat) (w : Worker), (boot st queue).workers[i]? = some w →
      i < n ∧ w = ⟨i, mem.next + 2 * i, mem.next + 2 * i + 1, none, 0, OuterPc.makeQuit,
        InnerPc.idle⟩ := by
    intro i w hw
    simp only [boot, h4, List.map_map, List.getElem?_map] at hw
    have hlt : i < n := by
      by_contra hge
      rw [List.getElem?_eq_none (by simp; omega)] at hw
      simp at hw
    rw [List.getElem?_range hlt] at hw
    simp only [Option.map_some', Function.comp, Spawn.worker, Option.some.injEq] at hw
    exact ⟨hlt, hw.symm⟩
  refine ⟨by simp [boot, h4], fun i w h => ?_, fun i w h => ?_, fun i w h hr => ?_,
    fun i w h hc => ?_⟩
  · obtain ⟨_, rfl⟩ := hw i w h
    exact ⟨rfl, rfl⟩
  · obtain ⟨hlt, rfl⟩ := hw i w h
    exact Or.inl (h7 _ (by simp; omega) (by simp; omega))
  · simp [boot] at hr
  · obtain ⟨hlt, rfl⟩ := hw i w h
    have : (boot st queue).mem.heap (mem.next + 2 * i) = ⟨1, []⟩ :=
      h7 _ (by omega) (by omega)
    rcases hc with hc | hc
    · simp only at hc
      rw [this] at hc
      exact absurd rfl hc
    · simp [OuterPc.pastRecv] at hc

/-- Everything known of a state reached from the return of `Start`. -/
theorem reach_facts (n : Nat) (dbg : Bool) (tc : TaskConfig) (sig quit : List (Option Nat))
    (mem : Mem) (queue : List String) (oracle : String → PipelineRun) (env : Env)
    (sched : List Action) (st : StartState) (s : State)
    (hst : Start ⟨dbg, ⟨(n : Int), ⟨true⟩, tc⟩⟩ ⟨false, sig, quit⟩ mem = some st)
    (hs : runSchedule oracle env sched (boot st queue) = some s) :
    st.g = ⟨true, (List.range n).map (fun j => some (mem.next + 2 * j)),
        (List.range n).map (fun j => some (mem.next + 2 * j + 1))⟩
      ∧ ScriptOk st.g (fun a => ∃ j, j < n ∧ a = mem.next + 2 * j) (mem.next + 2 * n)
      ∧ Inv st.g (fun a => ∃ j, j < n ∧ a = mem.next + 2 * j) (mem.next + 2 * n) s
      ∧ Hand mem.next n s := by
  obtain ⟨hg, hi0⟩ := inv_boot n dbg tc sig quit mem queue st hst
  have hk := scriptOk_of_start mem.next n
  rw [← hg] at hk
  exact ⟨hg, hk, runSchedule_inv hk sched hi0 hs,
    runSchedule_hand hk sched hi0 (hand_boot n dbg tc sig quit mem queue st hst) hs⟩

/-- When `Stop` has returned, every worker has posted its stop-ack and `Stop` has
taken it out of the channel. -/
theorem returned_acked {base n : Nat} {g0 : Globals} {s : State}
    (hg : g0 = ⟨true, (List.range n).map (fun j => some (base + 2 * j)),
        (List.range n).map (fun j => some (base + 2 * j + 1))⟩)
    (hi : Inv g0 (fun a => ∃ j, j < n ∧ a = base + 2 * j) (base + 2 * n) s)
    (hh : Hand base n s) (hr : s.stopReturned = true) :
    s.workers.length = n
      ∧ ∀ w ∈ s.workers, w.outer = OuterPc.finished ∧ s.mem.heap w.quitC = ⟨1, []⟩ := by
  have hm : s.main = some [] := by
    unfold State.stopReturned at hr
    split at hr
    · assumption
    · cases hr
  obtain ⟨e1, -, -⟩ := hi.inStop [] hm
  rw [List.append_nil] at e1
  refine ⟨hh.len, fun w hw => ?_⟩
  obtain ⟨i, hlt, hiw⟩ := List.getElem_of_mem hw
  have hget : s.workers[i]? = some w := by
    rw [List.getElem?_eq_getElem hlt, hiw]
  obtain ⟨_, a2⟩ := hh.addr i w hget
  apply hh.taken i w hget
  rw [e1]
  apply script_has_recv g0 (by rw [hg])
  rw [hg, a2]
  simp only [List.mem_map, List.mem_range, Option.some.injEq]
  exact ⟨i, by rw [← hh.len]; exact hlt, rfl⟩

/-- When the next action of `Stop` is a receive, its channel is the stop-ack
channel of a worker; it is empty and `Stop` cannot move, or it holds the ack
that this worker has posted and the step of `Stop` takes it. -/
theorem recv_waits {base n : Nat} {g0 : Globals} {s : State} {c : Nat} {rest : List Act}
    (oracle : String → PipelineRun) (env : Env)
    (hg : g0 = ⟨true, (List.range n).map (fun j => some (base + 2 * j)),
        (List.range n).map (fun j => some (base + 2 * j + 1))⟩)
    (hi : Inv g0 (fun a => ∃ j, j < n ∧ a = base + 2 * j) (base + 2 * n) s)
    (hh : Hand base n s) (hm : s.main = some (Act.recv c :: rest)) :
    ∃ w ∈ s.workers, w.quitC = c ∧
      ((s.mem.heap c = ⟨1, []⟩ ∧ step oracle env Action.stop s = none)
        ∨ (s.mem.heap c = ⟨1, [true]⟩ ∧ w.outer = OuterPc.finished
            ∧ (s.crashed = false → ∃ s1, step oracle env Action.stop s = some s1
                ∧ s1.mem.heap c = ⟨1, []⟩ ∧ s1.main = some rest))) := by
  obtain ⟨e1, -, -⟩ := hi.inStop _ hm
  have hmem : Act.recv c ∈ (Stop g0).script := by rw [← e1]; simp
  have hq := recv_mem_script g0 c hmem
  rw [hg] at hq
  simp only [List.mem_map, List.mem_range, Option.some.injEq] at hq
  obtain ⟨j, hj, hjc⟩ := hq
  have hlt : j < s.workers.length := by rw [hh.len]; exact hj
  have hget : s.workers[j]? = some s.workers[j] := List.getElem?_eq_getElem hlt
  obtain ⟨_, a2⟩ := hh.addr j _ hget
  refine ⟨s.workers[j], List.getElem_mem _, by omega, ?_⟩
  have hc : (s.workers[j]).quitC = c := by omega
  rcases hh.ack j _ hget with h0 | ⟨h0, h1⟩
  · rw [hc] at h0
    left
    refine ⟨h0, ?_⟩
    unfold step
    split
    · rfl
    · simp [hm, stepStop, Mem.recv, h0]
  · rw [hc] at h0
    right
    refine ⟨h0, h1, fun hcr => ?_⟩
    simp [step, hcr, hm, stepStop, Mem.recv, h0]

/-! ## The stop handshake -/

/-- Claim C1, the code at the failing input. One worker, one task "t" in the
queue. Under `raceSchedule` the worker has taken "t" from the queue and `Stop`
returns while "t" has not entered `execute` (counter 0, stop-ack posted); two
steps later the worker is inside `execute` with the counter at 1, after `Stop`
has returned. Under `lateSchedule` the worker is blocked in `queue.Pop` when
`Stop` runs and returns, and dequeues and executes "t" afterwards. -/
theorem stop_returns_before_dequeued_task_executes :
    Start envOne globalsInit memEmpty = some startedOne
      ∧ (runSchedule oracleOk envOne raceSchedule (boot startedOne ["t"])).map State.view
          = some (true, [(OuterPc.finished, Phase.holding "t", 0)])
      ∧ (runSchedule oracleOk envOne (raceSchedule ++ [Action.inner 0, Action.inner 0])
            (boot startedOne ["t"])).map State.view
          = some (true, [(OuterPc.finished, Phase.executing "t", 1)])
      ∧ (runSchedule oracleOk envOne lateSchedule (boot startedOne [])).map State.view
          = some (true, [(OuterPc.finished, Phase.executing "t", 1)]) := by
  refine ⟨rfl, ?_, ?_, ?_⟩ <;> decide

/-- Claim C6, counterexample. One worker; after the first action of `Stop` the
module is no longer running (`started = false`) although `Stop` has not
returned and has neither sent a stop-request nor received an ack. -/
theorem stop_clears_started_before_acks :
    (runSchedule oracleOk envOne [Action.callStop, Action.stop] (boot startedOne [])).map
        (fun s => (s.g.started, s.mailboxOps, s.stopReturned))
      = some (false, [], false) := by
  decide

/-- Claim C6, as amended. In every state reached from the return of `Start`
(enabled, `n` workers) by steps of `Stop`, the workers and the queue's
producer: the module is running until `Stop` is called; the first action of
`Stop` sets `started` to false and it is false in every state after that
action. `Stop` returns only after it has received the stop-ack of every worker:
when its next action is a receive, the channel is the stop-ack channel of a
worker, and either it is empty and `Stop` cannot move, or it holds the ack, the
control path of that worker has posted it and ended, and the step of `Stop`
takes the ack out; and when `Stop` has returned, it has performed all its
actions, there are `n` workers, the control path of every one has posted its
ack and ended, and every stop-ack channel is empty again. -/
theorem stop_started_false_from_first_action (n : Nat) (dbg : Bool) (tc : TaskConfig)
    (sig quit : List (Option Nat)) (mem : Mem)
    (queue : List String) (oracle : String → PipelineRun) (sched : List Action)
    (st : StartState) (s : State)
    (hst : Start ⟨dbg, ⟨(n : Int), ⟨true⟩, tc⟩⟩ ⟨false, sig, quit⟩ mem = some st)
    (hs : runSchedule oracle ⟨dbg, ⟨(n : Int), ⟨true⟩, tc⟩⟩ sched (boot st queue) = some s) :
    (Stop st.g).script.head? = some (Act.setStarted false)
      ∧ (s.main = none → s.g.started = true ∧ s.performed = [])
      ∧ (∀ rest, s.main = some rest →
          s.performed ++ rest = (Stop st.g).script
            ∧ (s.performed = [] → s.g.started = true)
            ∧ (s.performed ≠ [] → s.g.started = false))
      ∧ (s.stopReturned = true →
          s.g.started = false
            ∧ s.performed = (Stop st.g).script
            ∧ (∀ sp ∈ st.spawned, Act.recv sp.quitC ∈ s.performed)
            ∧ s.workers.length = n
            ∧ ∀ w ∈ s.workers, w.outer = OuterPc.finished ∧ s.mem.heap w.quitC = ⟨1, []⟩)
      ∧ (∀ c rest, s.main = some (Act.recv c :: rest) →
          ∃ w ∈ s.workers, w.quitC = c ∧
            ((s.mem.heap c = ⟨1, []⟩
                ∧ step oracle ⟨dbg, ⟨(n : Int), ⟨true⟩, tc⟩⟩ Action.stop s = none)
              ∨ (s.mem.heap c = ⟨1, [true]⟩ ∧ w.outer = OuterPc.finished
                  ∧ (s.crashed = false →
                      ∃ s1, step oracle ⟨dbg, ⟨(n : Int), ⟨true⟩, tc⟩⟩ Action.stop s = some s1
                        ∧ s1.mem.heap c = ⟨1, []⟩ ∧ s1.main = some rest)))) := by
  obtain ⟨hg, hk, hi, hh⟩ := reach_facts n dbg tc sig quit mem queue oracle _ sched st s hst hs
  obtain ⟨st1, h0, h1, h2, h3, h4, h5, h6, h7⟩ := Start_enabled n dbg tc sig quit mem
  rw [hst] at h0
  cases h0
  refine ⟨by simp [Stop, hk.started], hi.idle, hi.inStop, fun hr => ?_,
    fun c rest hm => recv_waits oracle _ hg hi hh hm⟩
  obtain ⟨hlen, hall⟩ := returned_acked hg hi hh hr
  have hm : s.main = some [] := by
    unfold State.stopReturned at hr
    split at hr
    · assumption
    · cases hr
  obtain ⟨e1, -, e3⟩ := hi.inStop [] hm
  rw [List.append_nil] at e1
  have hne : s.performed ≠ [] := by
    rw [e1]
    simp [Stop, hk.started]
  refine ⟨e3 hne, e1, fun sp hsp => ?_, hlen, hall⟩
  rw [e1]
  have hq : some sp.quitC ∈ st.g.quitChannels := by
    rw [h3]
    rw [h4] at hsp
    simp only [List.mem_map, List.mem_range] at hsp ⊢
    obtain ⟨j, hj, rfl⟩ := hsp
    exact ⟨j, hj, rfl⟩
  have : Act.recv sp.quitC ∈ (stopRecvs 0 st.g.quitChannels).filter Act.isMailbox := by
    rw [mailbox_stopRecvs]
    simp only [List.mem_map, List.mem_filterMap, id]
    exact ⟨sp.quitC, ⟨_, hq, rfl⟩, rfl⟩
  have := (List.mem_filter.1 this).1
  simp [Stop, hk.started, this]

/-- Claim C6, witness: one worker, the schedule `raceSchedule`; `Stop` has
returned, `started` is false, the ack of the worker was received and the
control path of every worker has ended. -/
theorem stop_started_false_from_first_action_witness :
    ∃ s, runSchedule oracleOk envOne raceSchedule (boot startedOne ["t"]) = some s
      ∧ s.g.started = false ∧ Act.recv 1 ∈ s.performed
      ∧ ∀ w ∈ s.workers, w.outer = OuterPc.finished ∧ s.mem.heap w.quitC = ⟨1, []⟩ :=
  ⟨_, rfl,
    ((stop_started_false_from_first_action 1 false ⟨0⟩ [] [] memEmpty ["t"] oracleOk
        raceSchedule startedOne _ rfl rfl).2.2.2.1 (by decide)).1,
    ((stop_started_false_from_first_action 1 false ⟨0⟩ [] [] memEmpty ["t"] oracleOk
        raceSchedule startedOne _ rfl rfl).2.2.2.1 (by decide)).2.2.1 ⟨0, 1, 0⟩ (by decide),
    ((stop_started_false_from_first_action 1 false ⟨0⟩ [] [] memEmpty ["t"] oracleOk
        raceSchedule startedOne _ rfl rfl).2.2.2.1 (by decide)).2.2.2.2⟩

/-- Claim C5. In every state reached from the return of `Start` (enabled, `n`
workers) by steps of `Stop`, the workers and the queue's producer: the channel
operations of `Stop` are, in order, one send on the stop-request channel of each
worker in shard order, then one receive on the stop-ack channel of each worker
in shard order; what `Stop` has performed so far is an initial part of that
list, the whole list once `Stop` has returned. Whenever the next action of
`Stop` is a send, its channel has capacity 1 and is empty, so that the send does
not block, and the step of `Stop` puts `true` into that channel. Whenever its
next action is a receive, the channel is the stop-ack channel of a worker, and
either it is empty and `Stop` cannot move, or it holds the ack, the control
path of that worker has posted it and ended, and the step of `Stop` takes the
ack out. The control path of a worker is past its receive of the stop-request
only when `Stop` has sent on its channel. When `Stop` has returned there are
`n` workers, the control path of every one has posted its ack and ended, and
every stop-ack channel is empty again. -/
theorem stop_mailbox_protocol (n : Nat) (dbg : Bool) (tc : TaskConfig)
    (sig quit : List (Option Nat)) (mem : Mem)
    (queue : List String) (oracle : String → PipelineRun) (sched : List Action)
    (st : StartState) (s : State)
    (hst : Start ⟨dbg, ⟨(n : Int), ⟨true⟩, tc⟩⟩ ⟨false, sig, quit⟩ mem = some st)
    (hs : runSchedule oracle ⟨dbg, ⟨(n : Int), ⟨true⟩, tc⟩⟩ sched (boot st queue) = some s) :
    st.spawned.map Spawn.shard = List.range n
      ∧ (Stop st.g).script.filter Act.isMailbox
          = st.spawned.map (fun sp => Act.send sp.signalC true)
            ++ st.spawned.map (fun sp => Act.recv sp.quitC)
      ∧ (∃ todo, s.mailboxOps ++ todo = (Stop st.g).script.filter Act.isMailbox
          ∧ (s.main = none → s.mailboxOps = [])
          ∧ (s.stopReturned = true → todo = []))
      ∧ (∀ c v rest, s.main = some (Act.send c v :: rest) →
          s.mem.heap c = ⟨1, []⟩
            ∧ (s.crashed = false →
                (step oracle ⟨dbg, ⟨(n : Int), ⟨true⟩, tc⟩⟩ Action.stop s).isSome = true))
      ∧ (∀ c v rest s1, s.main = some (Act.send c v :: rest) →
          step oracle ⟨dbg, ⟨(n : Int), ⟨true⟩, tc⟩⟩ Action.stop s = some s1 →
            v = true ∧ s1.mem.heap c = ⟨1, [true]⟩ ∧ s1.main = some rest)
      ∧ (∀ c rest, s.main = some (Act.recv c :: rest) →
          ∃ w ∈ s.workers, w.quitC = c ∧
            ((s.mem.heap c = ⟨1, []⟩
                ∧ step oracle ⟨dbg, ⟨(n : Int), ⟨true⟩, tc⟩⟩ Action.stop s = none)
              ∨ (s.mem.heap c = ⟨1, [true]⟩ ∧ w.outer = OuterPc.finished
                  ∧ (s.crashed = false →
                      ∃ s1, step oracle ⟨dbg, ⟨(n : Int), ⟨true⟩, tc⟩⟩ Action.stop s = some s1
                        ∧ s1.mem.heap c = ⟨1, []⟩ ∧ s1.main = some rest))))
      ∧ (∀ w ∈ s.workers, w.outer.pastRecv = true → w.signalC ∈ sendTargets s.performed)
      ∧ (s.stopReturned = true →
          s.workers.length = n
            ∧ ∀ w ∈ s.workers, w.outer = OuterPc.finished ∧ s.mem.heap w.quitC = ⟨1, []⟩) := by
  obtain ⟨hg, hk, hi, hh⟩ := reach_facts n dbg tc sig quit mem queue oracle _ sched st s hst hs
  obtain ⟨st1, h0, h1, h2, h3, h4, h5, h6, h7⟩ := Start_enabled n dbg tc sig quit mem
  rw [hst] at h0
  cases h0
  refine ⟨by simp [h4, Function.comp_def], ?_, ?_, ?_, ?_,
    fun c rest hm => recv_waits oracle _ hg hi hh hm, ?_, fun hr => returned_acked hg hi hh hr⟩
  · simp only [Stop, hk.started, if_true, List.cons_append, List.nil_append]
    simp only [List.filter_cons, Act.isMailbox, List.filter_append, mailbox_stopSends,
      mailbox_stopRecvs, h2, h3, h4, filterMap_id_map_some, List.map_map, Function.comp_def]
    simp
  · cases hm : s.main with
    | none =>
      obtain ⟨-, hp⟩ := hi.idle hm
      exact ⟨(Stop st.g).script.filter Act.isMailbox, by simp [State.mailboxOps, hp],
        fun _ => (by simp [State.mailboxOps, hp]),
        fun hr => (by simp [State.stopReturned, hm] at hr)⟩
    | some rest =>
      obtain ⟨e1, -, -⟩ := hi.inStop rest hm
      refine ⟨rest.filter Act.isMailbox, ?_, fun h => (by cases h), fun hr => ?_⟩
      · rw [← e1, List.filter_append]
        rfl
      · unfold State.stopReturned at hr
        rw [hm] at hr
        cases rest with
        | nil => rfl
        | cons x r => simp at hr
  · intro c v rest hm
    have hc : s.mem.heap c = ⟨1, []⟩ :=
      hi.pend_empty c (by simp [pending, hm, sendTargets])
    refine ⟨hc, fun hcr => ?_⟩
    simp [step, hcr, hm, stepStop, Mem.send, hc]
  · intro c v rest s1 hm hstep
    have hc : s.mem.heap c = ⟨1, []⟩ :=
      hi.pend_empty c (by simp [pending, hm, sendTargets])
    obtain ⟨e1, -, -⟩ := hi.inStop _ hm
    have hv : v = true := send_mem_script st.g c v (by rw [← e1]; simp)
    subst hv
    unfold step at hstep
    split at hstep
    · simp at hstep
    · simp only [hm, stepStop, Mem.send, hc, List.length_nil, Nat.lt_one_iff, if_true,
        Option.map_some', Option.some.injEq] at hstep
      subst hstep
      simp
  · intro w hw hp
    obtain ⟨i, hlt, hiw⟩ := List.getElem_of_mem hw
    have hget : s.workers[i]? = some w := by
      rw [List.getElem?_eq_getElem hlt, hiw]
    exact hh.req i w hget (Or.inr hp)

/-- Claim C5, witness: one worker; `Stop` is about to send its stop-request on
channel 0, which is empty. -/
theorem stop_mailbox_protocol_witness :
    ∃ s, runSchedule oracleOk envOne
          [Action.outer 0, Action.callStop, Action.stop, Action.stop] (boot startedOne ["t"])
        = some s
      ∧ s.main = some [Act.send 0 true,
          Act.log Level.debug [LogArg.str "send exit signal to fetch channel: ", LogArg.int 0],
          Act.log Level.debug
            [LogArg.str "get final exit signal from fetch channel: ", LogArg.int 0],
          Act.recv 1]
      ∧ s.mem.heap 0 = ⟨1, []⟩ :=
  ⟨_, rfl, rfl,
    ((stop_mailbox_protocol 1 false ⟨0⟩ [] [] memEmpty ["t"] oracleOk
        [Action.outer 0, Action.callStop, Action.stop, Action.stop] startedOne _ rfl
        rfl).2.2.2.1 0 true _ rfl).1⟩

end Crawler
